import Mathlib

/-!
Verification of the BuildXR mesh-group resolution engine and the
step-state / animation engine that sits on top of it.

The definitions below are a shallow embedding of the JavaScript sources:

- MeshGroupLoader.js : variant discovery (regex construction, escaping,
  matching and suffix sorting), base-group building, assembled-group
  resolution with cycle detection and uuid deduplication, and the
  getAllMeshesForName lookup.
- Navigator.js (VisibilityManager portion) : snapshot capture of original
  positions and material properties, fade-out of non-involved meshes.
- OutlineManager.js : blink timer update and setBlinking.

JavaScript regular expressions are embedded as a small regex AST with a
Brzozowski-derivative matcher and an explicit fuel-indexed pattern
compiler that returns none exactly where the RegExp constructor would
throw a SyntaxError (for example on a dangling quantifier).  JavaScript
Map objects are association lists with insert-or-overwrite semantics.
Numbers (opacity, timers) are embedded as rationals.
-/

namespace BuildXR

/-- Association-list lookup, embedding JavaScript Map.get / Map.has. -/
def lookupA {κ α : Type} [DecidableEq κ] (m : List (κ × α)) (k : κ) : Option α :=
  match m with
  | [] => none
  | (k', v) :: rest => if k' = k then some v else lookupA rest k

/-- Association-list insert-or-overwrite, embedding JavaScript Map.set
(the existing entry keeps its position; a new key is appended, matching
Map insertion order). -/
def mapSet {κ α : Type} [DecidableEq κ] (m : List (κ × α)) (k : κ) (v : α) :
    List (κ × α) :=
  match m with
  | [] => [(k, v)]
  | (k', v') :: rest =>
    if k' = k then (k, v) :: rest else (k', v') :: mapSet rest k v

/-- A renderable primitive: identity (uuid), name, the isMesh flag checked
during traversal, local position, material opacity and transparency, and
the visibility flag.  One value type serves the loader (which only reads
uuid, name, isMesh) and the visibility engine (which mutates position,
opacity, transparent, visible through the scene list). -/
structure Mesh where
  uuid : Nat
  name : String
  isMesh : Bool
  position : ℚ × ℚ × ℚ
  opacity : ℚ
  transparent : Bool
  visible : Bool
deriving DecidableEq, Repr

/-- Regex abstract syntax: the fragment that patterns built by
_discoverMeshVariants can denote (literal characters, the digit
character class from backslash-d, concatenation, alternation, star). -/
inductive RE : Type where
  | emp : RE
  | eps : RE
  | chr : Char → RE
  | digit : RE
  | cat : RE → RE → RE
  | alt : RE → RE → RE
  | star : RE → RE
deriving DecidableEq, Repr

/-- Does the regex accept the empty string. -/
def nullable : RE → Bool
  | RE.emp => false
  | RE.eps => true
  | RE.chr _ => false
  | RE.digit => false
  | RE.cat a b => nullable a && nullable b
  | RE.alt a b => nullable a || nullable b
  | RE.star _ => true

/-- Brzozowski derivative of a regex by one character. -/
def deriv : RE → Char → RE
  | RE.emp, _ => RE.emp
  | RE.eps, _ => RE.emp
  | RE.chr c, x => if c = x then RE.eps else RE.emp
  | RE.digit, x => if x.isDigit then RE.eps else RE.emp
  | RE.cat a b, x =>
    if nullable a then RE.alt (RE.cat (deriv a x) b) (deriv b x)
    else RE.cat (deriv a x) b
  | RE.alt a b, x => RE.alt (deriv a x) (deriv b x)
  | RE.star a, x => RE.cat (deriv a x) (RE.star a)

/-- Executable full-string regex match by iterated derivatives: this is
the semantics of RegExp.test for a pattern anchored by caret and dollar. -/
def reAccepts (r : RE) (s : List Char) : Bool :=
  nullable (s.foldl deriv r)

/-- The language of a regex, as an inductive predicate. -/
inductive Lang : RE → List Char → Prop where
  | eps : Lang RE.eps []
  | chr (c : Char) : Lang (RE.chr c) [c]
  | digit (c : Char) : c.isDigit → Lang RE.digit [c]
  | cat {a b : RE} {s₁ s₂ : List Char} :
      Lang a s₁ → Lang b s₂ → Lang (RE.cat a b) (s₁ ++ s₂)
  | altL {a b : RE} {s : List Char} : Lang a s → Lang (RE.alt a b) s
  | altR {a b : RE} {s : List Char} : Lang b s → Lang (RE.alt a b) s
  | starNil {a : RE} : Lang (RE.star a) []
  | starCons {a : RE} {s₁ s₂ : List Char} :
      Lang a s₁ → Lang (RE.star a) s₂ → Lang (RE.star a) (s₁ ++ s₂)

/-- The characters that _escapeRegex backslash-escapes, from the character
class dot star plus question caret dollar braces parens pipe brackets
backslash in MeshGroupLoader.js. -/
def regexSpecials : List Char :=
  ['.', '*', '+', '?', '^', '$', Char.ofNat 123, Char.ofNat 125,
   '(', ')', '|', '[', ']', '\\']

def isRegexSpecial (c : Char) : Bool := regexSpecials.contains c

/-- _escapeRegex on a character list: prefix every special character with
a backslash. -/
def escapeList : List Char → List Char
  | [] => []
  | c :: rest =>
    if isRegexSpecial c then '\\' :: c :: escapeList rest
    else c :: escapeList rest

/-- _escapeRegex from MeshGroupLoader.js. -/
def escapeRegex (s : String) : String := String.mk (escapeList s.data)

/-- The pattern string built by _discoverMeshVariants:
caret, escaped base name, open paren, underscore, backslash d, plus,
close paren, question mark, dollar. -/
def patternFor (base : String) : String :=
  "^" ++ escapeRegex base ++ "(_\\d+)?$"

/-- Is this character a postfix quantifier. -/
def quantChar (c : Char) : Bool := c = '?' || c = '*' || c = '+'

/-- Apply a postfix quantifier to an atom. -/
def applyQuant (r : RE) (c : Char) : RE :=
  if c = '?' then RE.alt r RE.eps
  else if c = '*' then RE.star r
  else RE.cat r (RE.star r)

/-- Fuel-indexed recursive-descent parse of a sequence of regex items
(atom plus optional postfix quantifier).  Stops in front of a closing
paren or at the end.  Returns none where the JavaScript RegExp
constructor would throw: a quantifier with no preceding atom, an
unmatched group, a trailing backslash, or (conservatively) any other
unescaped metacharacter.  Running out of fuel also returns none; the
compiler below always supplies sufficient fuel, which is proved, not
assumed.  Each arm first reads one atom (escaped character, digit
class, group, or plain character), then an optional quantifier, then
the remaining items.  The recursion is structural on the fuel. -/
def parseItems : Nat → List Char → Option (RE × List Char)
  | 0, _ => none
  | _ + 1, [] => some (RE.eps, [])
  | fuel + 1, c :: rest =>
    if c = ')' then some (RE.eps, c :: rest)
    else
      match
        (if c = '\\' then
          match rest with
          | [] => none
          | e :: rest2 => some (if e = 'd' then RE.digit else RE.chr e, rest2)
        else if c = '(' then
          match parseItems fuel rest with
          | none => none
          | some (inner, rem) =>
            match rem with
            | ')' :: rem2 => some (inner, rem2)
            | _ => none
        else if isRegexSpecial c then none
        else some (RE.chr c, rest)) with
      | none => none
      | some (atom, rest2) =>
        match rest2 with
        | q :: rest3 =>
          if quantChar q then
            match parseItems fuel rest3 with
            | none => none
            | some (r2, rem) => some (RE.cat (applyQuant atom q) r2, rem)
          else
            match parseItems fuel (q :: rest3) with
            | none => none
            | some (r2, rem) => some (RE.cat atom r2, rem)
        | [] =>
          match parseItems fuel [] with
          | none => none
          | some (r2, rem) => some (RE.cat atom r2, rem)

/-- Embed the RegExp constructor for the anchored patterns this program
builds: strip the leading caret and trailing dollar and parse the body.
none embeds a thrown SyntaxError. -/
def compilePattern (s : String) : Option RE :=
  match s.data with
  | [] => none
  | c :: rest =>
    if c = '^' then
      match rest.getLast? with
      | none => none
      | some d =>
        if d = '$' then
          match parseItems (rest.dropLast.length + 1) rest.dropLast with
          | some (r, []) => some r
          | _ => none
        else none
    else none

/-- Compile the variant pattern for a base name, as _discoverMeshVariants
does when it constructs its RegExp. -/
def compileVariantPattern (base : String) : Option RE :=
  compilePattern (patternFor base)

/-- regex.test(child.name) from _discoverMeshVariants.  The none branch
embeds the (proved unreachable) case of the RegExp constructor throwing. -/
def variantMatches (base name : String) : Bool :=
  match compileVariantPattern base with
  | some r => reAccepts r name.data
  | none => false

/-- Decimal value of a digit list, as parseInt reads the captured group. -/
def digitsVal (l : List Char) : Nat :=
  l.foldl (fun acc c => acc * 10 + (c.toNat - 48)) 0

/-- The sort key used by the comparator in _discoverMeshVariants: the
regex underscore-digits-dollar applied to the whole mesh name captures
the maximal trailing digit run when it is preceded by an underscore;
parseInt of that run, and 0 when the name has no such suffix. -/
def suffixNum (name : String) : Nat :=
  let revDigits := name.data.reverse.takeWhile Char.isDigit
  if revDigits = [] then 0
  else
    match name.data.reverse.drop revDigits.length with
    | '_' :: _ => digitsVal revDigits.reverse
    | _ => 0

/-- Stable insertion into a list sorted by suffixNum: an element moves
left past strictly greater keys only, which is the behavior of the
stable Array.prototype.sort with the numeric comparator. -/
def insertBySuffix (m : Mesh) : List Mesh → List Mesh
  | [] => [m]
  | b :: bs =>
    if suffixNum m.name ≤ suffixNum b.name then m :: b :: bs
    else b :: insertBySuffix m bs

/-- Stable sort by suffixNum (found.sort in _discoverMeshVariants). -/
def sortBySuffix : List Mesh → List Mesh
  | [] => []
  | a :: rest => insertBySuffix a (sortBySuffix rest)

/-- _discoverMeshVariants: traverse the scene collecting meshes whose
name the compiled variant regex accepts, then sort by numeric suffix.
The scene is the traversal order of the root model. -/
def discoverMeshVariants (scene : List Mesh) (base : String) : List Mesh :=
  sortBySuffix (scene.filter fun m => m.isMesh && variantMatches base m.name)

/-- One assembled-group declaration from the configuration JSON: a name
plus optional baseNames and groups reference lists (absent fields
default to empty, as the destructuring in _buildAssembledGroups does). -/
structure ACfg where
  name : String
  baseNames : List String
  groups : List String
deriving DecidableEq, Repr

/-- The mesh-group configuration JSON after normalization in initialize. -/
structure MeshGroupConfig where
  baseNames : List String
  assembledGroups : List ACfg
deriving DecidableEq, Repr

/-- One iteration of the forEach over configured base names in
buildGroups: discover the variants; a name that discovers zero meshes
is skipped with a warning (the callback returns early), so no entry is
created for it. -/
def buildBaseStep (scene : List Mesh) (acc : List (String × List Mesh))
    (bn : String) : List (String × List Mesh) :=
  let discovered := discoverMeshVariants scene bn
  if discovered.isEmpty then acc else mapSet acc bn discovered

/-- Step 1 of buildGroups. -/
def buildBaseGroups (cfg : MeshGroupConfig) (scene : List Mesh) :
    List (String × List Mesh) :=
  cfg.baseNames.foldl (buildBaseStep scene) []

/-- configByName from _buildAssembledGroups: configs with a falsy
(empty) name are skipped; a later config with the same name overwrites
an earlier one, so lookup finds the last declaration. -/
def cfgLookup (cfgs : List ACfg) (name : String) : Option ACfg :=
  (cfgs.filter fun c => c.name ≠ "").reverse.find? fun c => c.name = name

/-- The names that can open a recursive resolution step. -/
def cfgNames (cfgs : List ACfg) : List String :=
  ((cfgs.filter fun c => c.name ≠ "").map fun c => c.name).dedup

/-- Remaining-configs measure: configured names not currently on the
resolving stack.  The fuel handed to resolveAssembled is one more than
this measure at the empty stack, and the termination theorem shows that
this fuel is never exhausted. -/
def cfgMeasure (cfgs : List ACfg) (resolving : List String) : Nat :=
  ((cfgNames cfgs).filter fun n => decide (n ∉ resolving)).length

/-- One iteration of the seen-set deduplication loop in
_buildAssembledGroups. -/
def dedupStep (acc : List Mesh × List Nat) (m : Mesh) : List Mesh × List Nat :=
  if acc.2.contains m.uuid then acc else (acc.1 ++ [m], acc.2 ++ [m.uuid])

/-- Keep the first occurrence of every uuid (the seen-set loop in
_buildAssembledGroups). -/
def dedupByUuid (l : List Mesh) : List Mesh :=
  (l.foldl dedupStep ([], [])).1

/-- resolveAssembled from _buildAssembledGroups, together with the
forEach loop over a nested-groups list, merged into one function that
is structurally recursive on its fuel (so that it computes by kernel
reduction).  A Sum.inl argument resolves one name; a Sum.inr argument
resolves a list of children in order, concatenating.  Other arguments:
the assembled configs, the base-group map (this.groups), the
resolvingCache (as the list of names currently being resolved) and the
finalMeshesCache.  The result is the mesh list with the updated
finalMeshesCache; none arises only on fuel exhaustion, which the
termination theorem rules out for the fuel buildAssembledGroups uses.
Branch order for a name follows the source: final-cache hit,
circular-reference check (warn and contribute zero), base-group
fallback when no config exists (caching a hit, warning and returning
empty on a miss), and otherwise the recursive case: the meshes of the
baseNames list, then the resolved nested groups, deduplicated by uuid
and cached. -/
def resolveFn (cfgs : List ACfg) (baseG : List (String × List Mesh)) :
    Nat → List String → List (String × List Mesh) → (String ⊕ List String) →
    Option (List Mesh × List (String × List Mesh))
  | 0, _, _, _ => none
  | fuel + 1, resolving, cache, Sum.inl name =>
    match lookupA cache name with
    | some ms => some (ms, cache)
    | none =>
      if name ∈ resolving then some ([], cache)
      else
        match cfgLookup cfgs name with
        | none =>
          match lookupA baseG name with
          | some ms => some (ms, mapSet cache name ms)
          | none => some ([], cache)
        | some cfg =>
          let fromBases := cfg.baseNames.flatMap fun bn => (lookupA baseG bn).getD []
          match resolveFn cfgs baseG fuel (name :: resolving) cache (Sum.inr cfg.groups) with
          | none => none
          | some (nested, cache') =>
            let uniq := dedupByUuid (fromBases ++ nested)
            some (uniq, mapSet cache' name uniq)
  | _ + 1, _, cache, Sum.inr [] => some ([], cache)
  | fuel + 1, resolving, cache, Sum.inr (n :: ns) =>
    match resolveFn cfgs baseG fuel resolving cache (Sum.inl n) with
    | none => none
    | some (ms, cache') =>
      match resolveFn cfgs baseG fuel resolving cache' (Sum.inr ns) with
      | none => none
      | some (rest, cache'') => some (ms ++ rest, cache'')

/-- resolveAssembled proper: resolve one name. -/
def resolveAssembled (cfgs : List ACfg) (baseG : List (String × List Mesh))
    (fuel : Nat) (resolving : List String) (cache : List (String × List Mesh))
    (name : String) : Option (List Mesh × List (String × List Mesh)) :=
  resolveFn cfgs baseG fuel resolving cache (Sum.inl name)

/-- The longest nested-groups list any config declares (used only to
size the fuel). -/
def maxChildren (cfgs : List ACfg) : Nat :=
  (cfgs.map fun c => c.groups.length).foldr max 0

/-- The fuel buildAssembledGroups supplies to each top-level resolution:
enough for the deepest possible chain of not-yet-resolving configs,
each stepping through a children list. -/
def topFuel (cfgs : List ACfg) : Nat :=
  cfgMeasure cfgs [] * (maxChildren cfgs + 2) + 1

/-- One iteration of the forEach over assembled configs: resolve the
config name (sharing the final-meshes cache threaded in the
accumulator) and store the flattened list under it; configs with a
falsy name are skipped with a warning. -/
def buildAsmStep (cfgs : List ACfg) (baseG : List (String × List Mesh))
    (acc : List (String × List Mesh) × List (String × List Mesh))
    (cfg : ACfg) : List (String × List Mesh) × List (String × List Mesh) :=
  if cfg.name = "" then acc
  else
    match resolveAssembled cfgs baseG (topFuel cfgs) [] acc.2 cfg.name with
    | some (ms, cache') => (mapSet acc.1 cfg.name ms, cache')
    | none => acc

/-- Step 2 of buildGroups: resolve every assembled config in declaration
order, sharing the final-meshes cache across the loop. -/
def buildAssembledGroups (cfgs : List ACfg) (baseG : List (String × List Mesh)) :
    List (String × List Mesh) :=
  (cfgs.foldl (buildAsmStep cfgs baseG) ([], [])).1

/-- The state of a MeshGroupLoader after buildGroups: the base-name map
(this.groups) and the assembled-group map (this.assembledGroups). -/
structure LoaderState where
  groups : List (String × List Mesh)
  assembled : List (String × List Mesh)
deriving DecidableEq, Repr

/-- buildGroups over an already-initialized config and a loaded scene. -/
def buildGroups (cfg : MeshGroupConfig) (scene : List Mesh) : LoaderState :=
  let g := buildBaseGroups cfg scene
  { groups := g, assembled := buildAssembledGroups cfg.assembledGroups g }

/-- getMeshes: the base-group lookup (null when absent). -/
def getMeshes (st : LoaderState) (name : String) : Option (List Mesh) :=
  lookupA st.groups name

/-- getAllMeshesForName from MeshGroupLoader.js: the base-group map is
consulted first, then the assembled-group map, and none (the embedded
null) is returned when the name is in neither. -/
def getAllMeshesForName (st : LoaderState) (name : String) : Option (List Mesh) :=
  if (lookupA st.groups name).isSome then getMeshes st name
  else if (lookupA st.assembled name).isSome then lookupA st.assembled name
  else none

/-- getAssembledGroupMeshes (null when absent; the warning is a log). -/
def getAssembledGroupMeshes (st : LoaderState) (name : String) :
    Option (List Mesh) :=
  lookupA st.assembled name

/-- The meshes the VisibilityManager iterates: for each name of
this.allBaseMeshNames (the base-name keys in insertion order), the
meshes of that base group. -/
def trackedMeshes (st : LoaderState) : List Mesh :=
  st.groups.flatMap fun p => p.2

/-- Current state of a referenced mesh: the scene entry with the same
uuid.  In the source the manager holds live references, so the entry
always exists; the stored value is the (never used) fallback. -/
def getLive (scene : List Mesh) (m : Mesh) : Mesh :=
  (scene.find? fun x => x.uuid = m.uuid).getD m

/-- The snapshot store of VisibilityManager (Navigator.js): original
local position and original material transparent/opacity per uuid. -/
structure VMState where
  originalPositions : List (Nat × (ℚ × ℚ × ℚ))
  originalMaterialProps : List (Nat × (Bool × ℚ))
deriving DecidableEq, Repr

/-- VisibilityManager.initialize, the snapshot capture: for every mesh
of every base group, store the current position and the current
material transparent/opacity under the mesh uuid with Map.set, which
overwrites any existing entry.  (The per-mesh material cloning the
source performs at the same spot is identity in this value-level
embedding: each embedded mesh already owns its material fields.) -/
def vmCaptureStep (scene : List Mesh) (vm : VMState) (m : Mesh) : VMState :=
  let cur := getLive scene m
  { originalPositions := mapSet vm.originalPositions cur.uuid cur.position,
    originalMaterialProps :=
      mapSet vm.originalMaterialProps cur.uuid (cur.transparent, cur.opacity) }

def vmCapture (st : LoaderState) (scene : List Mesh) (vm : VMState) : VMState :=
  (trackedMeshes st).foldl (vmCaptureStep scene) vm

/-- The involved-mesh collection at the top of showOnlyStepMeshes: the
meshes of each named base group, then of each named assembled group,
missing names contributing nothing. -/
def involvedMeshesFor (st : LoaderState) (baseNames assembled : List String) :
    List Mesh :=
  (baseNames.flatMap fun n => (getMeshes st n).getD []) ++
    (assembled.flatMap fun n => (getAssembledGroupMeshes st n).getD [])

/-- The meshesToFade collection of _fadeOutNonInvolved: every tracked
mesh not in the involved set (reference identity, i.e. uuid). -/
def fadeTargets (st : LoaderState) (involved : List Mesh) : List Nat :=
  ((trackedMeshes st).filter fun m =>
      ¬ (involved.map fun i => i.uuid).contains m.uuid).map fun m => m.uuid

/-- The transparency enabling done while collecting meshesToFade. -/
def setTransparentOn (targets : List Nat) (scene : List Mesh) : List Mesh :=
  scene.map fun m =>
    if targets.contains m.uuid then { m with transparent := true } else m

/-- One target mesh under one execution of the animate closure of
_fadeOutNonInvolved at wall-clock time now: progress is elapsed over
the 500 ms duration clamped to 1, opacity is set to 1 minus progress,
and when progress has reached 1 the mesh is additionally hidden.  The
closure has no generation check: it updates unconditionally. -/
def fadeMeshUpd (start now : ℚ) (m : Mesh) : Mesh :=
  let progress := min ((now - start) / 500) 1
  { m with opacity := 1 - progress,
           visible := if 1 ≤ progress then false else m.visible }

/-- One execution of the animate closure over the whole scene. -/
def fadeTick (targets : List Nat) (start now : ℚ) (scene : List Mesh) :
    List Mesh :=
  scene.map fun m =>
    if targets.contains m.uuid then fadeMeshUpd start now m else m

/-- A fade animation driven by successive frame callbacks at the given
wall-clock times (the loop stops after the first time at least start
plus 500, which callers encode by ending the list there). -/
def runFade (targets : List Nat) (start : ℚ) (times : List ℚ)
    (scene : List Mesh) : List Mesh :=
  times.foldl (fun sc t => fadeTick targets start t sc) scene

/-- One pending frame callback of some fade animation: its captured
target list and start time, and the wall-clock time at which the host
runs it.  Two overlapping showOnlyStepMeshes calls each contribute such
callbacks, interleaved by the host scheduler. -/
structure FadeEv where
  targets : List Nat
  start : ℚ
  now : ℚ
deriving DecidableEq, Repr

/-- Run an interleaved sequence of fade frame callbacks. -/
def runFadeEvents (evs : List FadeEv) (scene : List Mesh) : List Mesh :=
  evs.foldl (fun sc e => fadeTick e.targets e.start e.now sc) scene

/-- OutlineManager state: blink flag, frequency, timer, on/off phase,
the stored selection and the selection currently handed to the outline
pass. -/
structure OMState where
  isBlinking : Bool
  blinkFreq : ℚ
  blinkTimer : ℚ
  blinkVisible : Bool
  selectedObjects : List Nat
  passSelected : List Nat
deriving DecidableEq, Repr

/-- OutlineManager.update: no-op unless blinking; accumulate the delta;
once the accumulated timer reaches half the period 1/freq, reset the
timer, toggle the phase, and swap the pass selection accordingly. -/
def omUpdate (s : OMState) (dt : ℚ) : OMState :=
  if ¬ s.isBlinking then s
  else
    let t := s.blinkTimer + dt
    let period := 1 / s.blinkFreq
    if t ≥ period / 2 then
      let v := !s.blinkVisible
      { s with blinkTimer := 0, blinkVisible := v,
               passSelected := if v then s.selectedObjects else [] }
    else { s with blinkTimer := t }

/-- OutlineManager.setBlinking: set the flag and frequency, reset the
timer, force the phase on; when disabling, also restore the pass
selection to the full stored selection. -/
def omSetBlinking (s : OMState) (enabled : Bool) (freq : ℚ) : OMState :=
  let s' := { s with isBlinking := enabled, blinkFreq := freq,
                     blinkTimer := 0, blinkVisible := true }
  if ¬ enabled then { s' with passSelected := s'.selectedObjects } else s'

/-- Iterated update with a fixed per-frame delta. -/
def omIter (s : OMState) (dt : ℚ) : Nat → OMState
  | 0 => s
  | n + 1 => omUpdate (omIter s dt n) dt

/-- update and setBlinking as transformations of the pair of outline
state and scene: the source methods read and write only outline state,
never a primitive, which this pairing makes a provable statement. -/
def omUpdateFull (p : OMState × List Mesh) (dt : ℚ) : OMState × List Mesh :=
  (omUpdate p.1 dt, p.2)

def omSetBlinkingFull (p : OMState × List Mesh) (enabled : Bool) (freq : ℚ) :
    OMState × List Mesh :=
  (omSetBlinking p.1 enabled freq, p.2)

/-- Modelled from the spec: the name shape the claims describe, the base
name exactly or the base name, an underscore and a nonempty digit
group. -/
def VariantName (base name : String) : Prop :=
  name = base ∨
    ∃ ds : List Char, ds ≠ [] ∧ (∀ c ∈ ds, c.isDigit = true) ∧
      name.data = base.data ++ '_' :: ds

/-- Modelled from the spec: the suffix key the ordering claim uses, the
group number N of a name of the form base underscore N, and 0 for the
unsuffixed base name itself. -/
def specSuffixKey (base name : String) : Nat :=
  if name = base then 0 else digitsVal (name.data.drop (base.data.length + 1))

/-- Modelled from the spec: a scene settled on a step partition, every
involved primitive visible at full opacity and every non-involved
primitive hidden (no primitive left partially faded). -/
def stepPartitionSettled (scene : List Mesh) (involved : List Nat) : Bool :=
  scene.all fun m =>
    if involved.contains m.uuid then m.visible && (m.opacity == 1)
    else !m.visible

/-- A fresh primitive for the concrete scenarios: full opacity, opaque,
visible, at the origin. -/
def mk0 (u : Nat) (nm : String) : Mesh :=
  { uuid := u, name := nm, isMesh := true, position := (0, 0, 0),
    opacity := 1, transparent := false, visible := true }

/-- The four-primitive scene of the spec scenarios. -/
def sceneWing : List Mesh :=
  [mk0 0 "wing", mk0 1 "wing_1", mk0 2 "wing_2", mk0 3 "fuselage"]

/-- Config with the single base name wing (the resolve scenario). -/
def cfgWing : MeshGroupConfig :=
  { baseNames := ["wing"], assembledGroups := [] }

/-- Config with base names wing and fuselage (the fade scenario needs
the fuselage tracked so that it is collected for fading). -/
def cfgWingFus : MeshGroupConfig :=
  { baseNames := ["wing", "fuselage"], assembledGroups := [] }

def loaderWingFus : LoaderState := buildGroups cfgWingFus sceneWing

/-- Involved meshes for a step whose involved base meshes are wing. -/
def involvedWing : List Mesh := involvedMeshesFor loaderWingFus ["wing"] []

/-- Involved meshes for a step whose involved base meshes are fuselage. -/
def involvedFus : List Mesh := involvedMeshesFor loaderWingFus ["fuselage"] []

/-- Base meshes for the cycle and deduplication scenarios. -/
def meshB1 : Mesh := mk0 10 "base1"

def meshB2 : Mesh := mk0 11 "base2"

def baseGCyc : List (String × List Mesh) :=
  [("base1", [meshB1]), ("base2", [meshB2])]

/-- Two assembled groups referencing each other, A referring to B and
base1, B referring back to A and to base2. -/
def cfgsCyc : List ACfg :=
  [{ name := "A", baseNames := [], groups := ["B", "base1"] },
   { name := "B", baseNames := [], groups := ["A", "base2"] }]

/-- Two distinct primitives sharing one name (deduplication is by uuid,
not by name, so both must survive). -/
def meshX20 : Mesh := mk0 20 "x"

def meshX21 : Mesh := mk0 21 "x"

def baseGDup : List (String × List Mesh) :=
  [("bx", [meshX20, meshX21])]

/-- A composite that references the same base group twice. -/
def cfgsDup : List ACfg :=
  [{ name := "D", baseNames := [], groups := ["bx", "bx"] }]

/-- Concatenation of literal characters in front of a regex: the shape
the compiled variant pattern takes for the escaped base name. -/
def litCat (l : List Char) (r : RE) : RE :=
  l.foldr (fun c acc => RE.cat (RE.chr c) acc) r

/-- The characters of the variant pattern between the escaped base name
and the closing dollar anchor: open paren, underscore, backslash, d,
plus, close paren, question mark. -/
def suffixChars : List Char := ['(', '_', '\\', 'd', '+', ')', '?']

/-- The regex the parser produces for suffixChars. -/
def suffixRE : RE :=
  RE.cat
    (RE.alt
      (RE.cat (RE.chr '_')
        (RE.cat (RE.cat RE.digit (RE.star RE.digit)) RE.eps))
      RE.eps)
    RE.eps

/-- Per-mesh residual of runFade: the same sequence of animate
executions, restricted to one mesh. -/
def fadePoint (targets : List Nat) (start : ℚ) (times : List ℚ) (m : Mesh) :
    Mesh :=
  times.foldl
    (fun mm t => if targets.contains mm.uuid then fadeMeshUpd start t mm else mm)
    m

/-- No uuid occurs twice. -/
def NodupUuid (l : List Mesh) : Prop := (l.map Mesh.uuid).Nodup

/-- Invariant of the final-meshes cache: every entry stored under a name
that has an assembled config is already deduplicated. -/
def CacheInv (cfgs : List ACfg) (cache : List (String × List Mesh)) : Prop :=
  ∀ n ms, lookupA cache n = some ms → (cfgLookup cfgs n).isSome = true →
    NodupUuid ms

/-- meshesToFade of the step involving wing (the fuselage). -/
def targetsS1 : List Nat := fadeTargets loaderWingFus involvedWing

/-- meshesToFade of the step involving the fuselage (the wing meshes). -/
def targetsS2 : List Nat := fadeTargets loaderWingFus involvedFus

/-- Interleaved frame callbacks of two overlapping fades: the wing step
fade launched at time 0 and the fuselage step fade launched at time 10,
each running to completion (its 500 ms mark). -/
def evsRapid : List FadeEv :=
  [{ targets := targetsS1, start := 0, now := 250 },
   { targets := targetsS2, start := 10, now := 260 },
   { targets := targetsS1, start := 0, now := 500 },
   { targets := targetsS2, start := 10, now := 510 }]

/-- The scene after both fade collections enabled transparency. -/
def sceneRapidPrep : List Mesh :=
  setTransparentOn targetsS2 (setTransparentOn targetsS1 sceneWing)

/-- The settled scene after the interleaved callbacks. -/
def sceneRapidFinal : List Mesh := runFadeEvents evsRapid sceneRapidPrep

/-- Fixtures for the snapshot-capture claim. -/
def cfgW1 : MeshGroupConfig := { baseNames := ["wing"], assembledGroups := [] }

def sceneCapA : List Mesh := [mk0 0 "wing"]

def loaderW1 : LoaderState := buildGroups cfgW1 sceneCapA

/-- The same scene after a step perturbed the wing: moved and half
faded. -/
def sceneCapB : List Mesh :=
  [{ mk0 0 "wing" with position := (5, 0, 0), opacity := 1 / 2 }]

def vmEmpty : VMState := { originalPositions := [], originalMaterialProps := [] }

def vmFirst : VMState := vmCapture loaderW1 sceneCapA vmEmpty

def vmSecond : VMState := vmCapture loaderW1 sceneCapB vmFirst

/-- Fixture for the lookup-order claim: the name g is both a base group
(one mesh) and an assembled group (resolving empty, because its single
child is undefined). -/
def cfgBoth : MeshGroupConfig :=
  { baseNames := ["g"],
    assembledGroups := [{ name := "g", baseNames := [], groups := ["hbase"] },
                        { name := "h", baseNames := [], groups := ["g"] }] }

def sceneG : List Mesh := [mk0 0 "g"]

def loaderBoth : LoaderState := buildGroups cfgBoth sceneG

/-- Fixture for the empty-base-name claim: ghost discovers nothing. -/
def cfgGhost : MeshGroupConfig :=
  { baseNames := ["ghost", "wing"], assembledGroups := [] }

/-- A concrete outline state for witnesses. -/
def om0 : OMState :=
  { isBlinking := false, blinkFreq := 2, blinkTimer := 0, blinkVisible := true,
    selectedObjects := [1, 2], passSelected := [1, 2] }

/-- One frame callback applied to one mesh (the per-mesh residual of
runFadeEvents). -/
def fadeEvPoint (evs : List FadeEv) (m : Mesh) : Mesh :=
  evs.foldl
    (fun mm e =>
      if e.targets.contains mm.uuid then fadeMeshUpd e.start e.now mm else mm)
    m

/-- The fuselage as it stands after the fade collections enabled its
transparency. -/
def fusPrep : Mesh := { mk0 3 "fuselage" with transparent := true }


theorem lang_emp_false {s : List Char} : ¬ Lang RE.emp s := by
  intro h
  cases h

theorem lang_eps_inv {s : List Char} (h : Lang RE.eps s) : s = [] := by
  cases h
  rfl

theorem lang_chr_inv {c : Char} {s : List Char} (h : Lang (RE.chr c) s) :
    s = [c] := by
  cases h
  rfl

theorem lang_digit_inv {s : List Char} (h : Lang RE.digit s) :
    ∃ c, c.isDigit = true ∧ s = [c] := by
  cases h with
  | digit c hc => exact ⟨c, hc, rfl⟩

theorem lang_cat_inv {a b : RE} {s : List Char} (h : Lang (RE.cat a b) s) :
    ∃ s₁ s₂, s = s₁ ++ s₂ ∧ Lang a s₁ ∧ Lang b s₂ := by
  cases h with
  | cat h₁ h₂ => exact ⟨_, _, rfl, h₁, h₂⟩

theorem lang_alt_inv {a b : RE} {s : List Char} (h : Lang (RE.alt a b) s) :
    Lang a s ∨ Lang b s := by
  cases h with
  | altL h₁ => exact Or.inl h₁
  | altR h₂ => exact Or.inr h₂

theorem lang_nil_of_nullable : ∀ {r : RE}, nullable r = true → Lang r [] := by
  intro r
  induction r with
  | emp => intro h; simp [nullable] at h
  | eps => intro _; exact Lang.eps
  | chr c => intro h; simp [nullable] at h
  | digit => intro h; simp [nullable] at h
  | cat a b iha ihb =>
    intro h
    simp [nullable] at h
    have := Lang.cat (iha h.1) (ihb h.2)
    simpa using this
  | alt a b iha ihb =>
    intro h
    simp [nullable] at h
    cases h with
    | inl h => exact Lang.altL (iha h)
    | inr h => exact Lang.altR (ihb h)
  | star a _ => intro _; exact Lang.starNil

theorem nullable_of_lang_nil {r : RE} {s : List Char} (h : Lang r s) :
    s = [] → nullable r = true := by
  induction h with
  | eps => intro _; rfl
  | chr c => intro h; cases h
  | digit c _ => intro h; cases h
  | cat h₁ h₂ ih₁ ih₂ =>
    intro h
    rcases List.append_eq_nil.mp h with ⟨e₁, e₂⟩
    simp [nullable, ih₁ e₁, ih₂ e₂]
  | altL h₁ ih => intro h; simp [nullable, ih h]
  | altR h₂ ih => intro h; simp [nullable, ih h]
  | starNil => intro _; rfl
  | starCons h₁ h₂ ih₁ ih₂ => intro _; rfl

theorem nullable_iff {r : RE} : nullable r = true ↔ Lang r [] :=
  ⟨lang_nil_of_nullable, fun h => nullable_of_lang_nil h rfl⟩

theorem lang_deriv_of_cons {r : RE} {w : List Char} (h : Lang r w) :
    ∀ c s, w = c :: s → Lang (deriv r c) s := by
  induction h with
  | eps => intro c s h; cases h
  | chr c' =>
    intro c s h
    cases h
    simp [deriv]
    exact Lang.eps
  | digit c' hc =>
    intro c s h
    cases h
    simp [deriv, hc]
    exact Lang.eps
  | @cat a b s₁ s₂ h₁ h₂ ih₁ ih₂ =>
    intro c s h
    cases s₁ with
    | nil =>
      rw [List.nil_append] at h
      have hn : nullable a = true := nullable_of_lang_nil h₁ rfl
      have hb : Lang (deriv b c) s := ih₂ c s h
      simp [deriv, hn]
      exact Lang.altR hb
    | cons x s₁' =>
      rw [List.cons_append] at h
      injection h with hx hs
      subst hx
      subst hs
      by_cases hn : nullable a = true
      · simp [deriv, hn]
        exact Lang.altL (Lang.cat (ih₁ _ _ rfl) h₂)
      · simp [deriv, hn]
        exact Lang.cat (ih₁ _ _ rfl) h₂
  | altL h₁ ih =>
    intro c s h
    simp [deriv]
    exact Lang.altL (ih c s h)
  | altR h₂ ih =>
    intro c s h
    simp [deriv]
    exact Lang.altR (ih c s h)
  | starNil => intro c s h; cases h
  | @starCons a s₁ s₂ h₁ h₂ ih₁ ih₂ =>
    intro c s h
    cases s₁ with
    | nil =>
      rw [List.nil_append] at h
      exact ih₂ c s h
    | cons x s₁' =>
      rw [List.cons_append] at h
      injection h with hx hs
      subst hx
      subst hs
      simp [deriv]
      exact Lang.cat (ih₁ _ _ rfl) h₂

theorem lang_cons_of_deriv : ∀ {r : RE} {c : Char} {s : List Char},
    Lang (deriv r c) s → Lang r (c :: s) := by
  intro r
  induction r with
  | emp => intro c s h; exact absurd h lang_emp_false
  | eps => intro c s h; exact absurd h lang_emp_false
  | chr c' =>
    intro c s h
    by_cases hc : c' = c
    · subst hc
      simp [deriv] at h
      have := lang_eps_inv h
      subst this
      exact Lang.chr c'
    · simp [deriv, hc] at h
      exact absurd h lang_emp_false
  | digit =>
    intro c s h
    by_cases hc : c.isDigit = true
    · simp [deriv, hc] at h
      have := lang_eps_inv h
      subst this
      exact Lang.digit c hc
    · simp [deriv, hc] at h
      exact absurd h lang_emp_false
  | cat a b iha ihb =>
    intro c s h
    by_cases hn : nullable a = true
    · simp [deriv, hn] at h
      rcases lang_alt_inv h with h' | h'
      · rcases lang_cat_inv h' with ⟨s₁, s₂, hs, h₁, h₂⟩
        subst hs
        have : Lang (RE.cat a b) ((c :: s₁) ++ s₂) := Lang.cat (iha h₁) h₂
        simpa using this
      · have h0 : Lang a [] := lang_nil_of_nullable hn
        have : Lang (RE.cat a b) ([] ++ (c :: s)) := Lang.cat h0 (ihb h')
        simpa using this
    · simp [deriv, hn] at h
      rcases lang_cat_inv h with ⟨s₁, s₂, hs, h₁, h₂⟩
      subst hs
      have : Lang (RE.cat a b) ((c :: s₁) ++ s₂) := Lang.cat (iha h₁) h₂
      simpa using this
  | alt a b iha ihb =>
    intro c s h
    simp [deriv] at h
    rcases lang_alt_inv h with h' | h'
    · exact Lang.altL (iha h')
    · exact Lang.altR (ihb h')
  | star a iha =>
    intro c s h
    simp [deriv] at h
    rcases lang_cat_inv h with ⟨s₁, s₂, hs, h₁, h₂⟩
    subst hs
    have : Lang (RE.star a) ((c :: s₁) ++ s₂) := Lang.starCons (iha h₁) h₂
    simpa using this

theorem lang_deriv_iff {r : RE} {c : Char} {s : List Char} :
    Lang (deriv r c) s ↔ Lang r (c :: s) :=
  ⟨lang_cons_of_deriv, fun h => lang_deriv_of_cons h c s rfl⟩

theorem reAccepts_iff : ∀ (s : List Char) (r : RE),
    reAccepts r s = true ↔ Lang r s := by
  intro s
  induction s with
  | nil => intro r; exact nullable_iff
  | cons c s ih =>
    intro r
    have : reAccepts r (c :: s) = reAccepts (deriv r c) s := rfl
    rw [this, ih (deriv r c), lang_deriv_iff]

theorem special_ne_d {c : Char} (h : isRegexSpecial c = true) : c ≠ 'd' := by
  intro hc
  subst hc
  exact absurd h (by decide)

theorem not_special_facts {c : Char} (h : isRegexSpecial c = false) :
    c ≠ ')' ∧ c ≠ '\\' ∧ c ≠ '(' := by
  refine ⟨?_, ?_, ?_⟩ <;> intro hc <;> subst hc <;> exact absurd h (by decide)

theorem quant_special {c : Char} (h : quantChar c = true) :
    isRegexSpecial c = true := by
  simp [quantChar, Bool.or_eq_true, decide_eq_true_eq] at h
  rcases h with (rfl | rfl) | rfl <;> decide

theorem escape_head_quant_false {l : List Char} {e : Char} {es : List Char}
    (h : escapeList l = e :: es) : quantChar e = false := by
  cases l with
  | nil => simp [escapeList] at h
  | cons c l' =>
    have hu : escapeList (c :: l') =
        if isRegexSpecial c then '\\' :: c :: escapeList l'
        else c :: escapeList l' := rfl
    rw [hu] at h
    by_cases hs : isRegexSpecial c = true
    · rw [if_pos hs] at h
      injection h with h1 _
      subst h1
      decide
    · rw [if_neg hs] at h
      injection h with h1 _
      subst h1
      cases hqc : quantChar c with
      | false => rfl
      | true => exact absurd (quant_special hqc) hs

theorem parse_suffix : ∀ f : Nat,
    parseItems (f + 4) suffixChars = some (suffixRE, []) := by
  intro f
  rfl

theorem escapeList_append_cons (c : Char) (l' : List Char) (tail : List Char) :
    escapeList (c :: l') ++ tail =
      if isRegexSpecial c then '\\' :: c :: (escapeList l' ++ tail)
      else c :: (escapeList l' ++ tail) := by
  by_cases hs : isRegexSpecial c = true
  · simp [escapeList, hs]
  · simp [escapeList, hs]

theorem parseItems_cons_plain_cons (fuel : Nat) (c q : Char) (rest3 : List Char)
    (hs : isRegexSpecial c = false) (hq : quantChar q = false) :
    parseItems (fuel + 1) (c :: q :: rest3) =
      match parseItems fuel (q :: rest3) with
      | none => none
      | some (r2, rem) => some (RE.cat (RE.chr c) r2, rem) := by
  obtain ⟨h1, h2, h3⟩ := not_special_facts hs
  simp [parseItems, h1, h2, h3, hs, hq]

theorem parseItems_cons_escaped_cons (fuel : Nat) (c q : Char)
    (rest3 : List Char) (hne : c ≠ 'd') (hq : quantChar q = false) :
    parseItems (fuel + 1) ('\\' :: c :: q :: rest3) =
      match parseItems fuel (q :: rest3) with
      | none => none
      | some (r2, rem) => some (RE.cat (RE.chr c) r2, rem) := by
  simp [parseItems, hne, hq]

theorem escapeList_length (l : List Char) :
    (escapeList l).length = l.length + l.countP (fun c => isRegexSpecial c) := by
  induction l with
  | nil => rfl
  | cons c l' ih =>
    by_cases hs : isRegexSpecial c = true
    · simp [escapeList, hs, ih, List.countP_cons]
      omega
    · simp [escapeList, hs, ih, List.countP_cons]
      omega

theorem parse_escape (t0 : Char) (ts : List Char) (hq0 : quantChar t0 = false)
    (r : RE) (rem : List Char) :
    ∀ (l : List Char) (fuel : Nat),
      parseItems fuel (t0 :: ts) = some (r, rem) →
      parseItems (fuel + l.length) (escapeList l ++ (t0 :: ts)) =
        some (litCat l r, rem) := by
  intro l
  induction l with
  | nil =>
    intro fuel ht
    simpa [escapeList, litCat] using ht
  | cons c l' ih =>
    intro fuel ht
    have hrec := ih fuel ht
    have harith : fuel + (c :: l').length = (fuel + l'.length) + 1 := by
      simp [List.length_cons]
      omega
    rw [harith, escapeList_append_cons]
    by_cases hs : isRegexSpecial c = true
    · rw [if_pos hs]
      have hne : c ≠ 'd' := special_ne_d hs
      cases hE : escapeList l' with
      | nil =>
        rw [hE, List.nil_append] at hrec
        rw [List.nil_append]
        rw [parseItems_cons_escaped_cons _ _ _ _ hne hq0, hrec]
        rfl
      | cons e es =>
        have hqe : quantChar e = false := escape_head_quant_false hE
        rw [hE, List.cons_append] at hrec
        rw [List.cons_append]
        rw [parseItems_cons_escaped_cons _ _ _ _ hne hqe, hrec]
        rfl
    · rw [if_neg hs]
      rw [Bool.not_eq_true] at hs
      cases hE : escapeList l' with
      | nil =>
        rw [hE, List.nil_append] at hrec
        rw [List.nil_append]
        rw [parseItems_cons_plain_cons _ _ _ _ hs hq0, hrec]
        rfl
      | cons e es =>
        have hqe : quantChar e = false := escape_head_quant_false hE
        rw [hE, List.cons_append] at hrec
        rw [List.cons_append]
        rw [parseItems_cons_plain_cons _ _ _ _ hs hqe, hrec]
        rfl

theorem data_patternFor (base : String) :
    (patternFor base).data =
      '^' :: ((escapeList base.data ++ suffixChars) ++ ['$']) := by
  show ("^" ++ escapeRegex base ++ "(_\\d+)?$").data = _
  rw [String.data_append, String.data_append]
  show (['^'] ++ escapeList base.data) ++ (suffixChars ++ ['$']) = _
  simp

theorem getLast?_append_singleton {α : Type} (l : List α) (a : α) :
    (l ++ [a]).getLast? = some a := by
  induction l with
  | nil => rfl
  | cons x xs ih =>
    rw [List.cons_append]
    cases hxs : xs ++ [a] with
    | nil => exact absurd hxs (by simp)
    | cons z zs =>
      rw [List.getLast?_cons_cons, ← hxs]
      exact ih

theorem dropLast_append_singleton {α : Type} (l : List α) (a : α) :
    (l ++ [a]).dropLast = l := by
  induction l with
  | nil => rfl
  | cons x xs ih =>
    cases xs with
    | nil => rfl
    | cons y ys =>
      rw [List.cons_append, List.cons_append, List.dropLast_cons₂,
        ← List.cons_append, ih]

theorem compilePattern_mk (mid : List Char) :
    compilePattern (String.mk ('^' :: (mid ++ ['$']))) =
      match parseItems (mid.length + 1) mid with
      | some (r, []) => some r
      | _ => none := by
  show (if ('^' : Char) = '^' then
      match ((mid ++ ['$']).getLast?) with
      | none => none
      | some d =>
        if d = '$' then
          match parseItems ((mid ++ ['$']).dropLast.length + 1)
              ((mid ++ ['$']).dropLast) with
          | some (r, []) => some r
          | _ => none
        else none
    else none) = _
  rw [if_pos rfl, getLast?_append_singleton, dropLast_append_singleton]
  rfl

theorem compile_variant (base : String) :
    compileVariantPattern base = some (litCat base.data suffixRE) := by
  have hfuel : ((escapeList base.data ++ suffixChars).length + 1) =
      ((base.data.countP fun c => isRegexSpecial c) + 4 + 4) +
        base.data.length := by
    simp [List.length_append, escapeList_length, suffixChars]
    omega
  have hsuffix : parseItems
      ((base.data.countP fun c => isRegexSpecial c) + 4 + 4) suffixChars =
      some (suffixRE, []) := parse_suffix _
  have hparse := parse_escape '(' ['_', '\\', 'd', '+', ')', '?'] (by decide)
      suffixRE [] base.data _ hsuffix
  rw [show ('(' :: ['_', '\\', 'd', '+', ')', '?']) = suffixChars from rfl]
    at hparse
  have hmk : patternFor base =
      String.mk ('^' :: ((escapeList base.data ++ suffixChars) ++ ['$'])) := by
    apply String.ext
    rw [data_patternFor]
  show compilePattern (patternFor base) = some (litCat base.data suffixRE)
  rw [hmk, compilePattern_mk, hfuel, hparse]

theorem litCat_lang (l : List Char) (r : RE) : ∀ (s : List Char),
    Lang (litCat l r) s ↔ ∃ s₂, s = l ++ s₂ ∧ Lang r s₂ := by
  induction l with
  | nil =>
    intro s
    constructor
    · intro h
      exact ⟨s, rfl, h⟩
    · rintro ⟨s₂, rfl, h⟩
      simpa using h
  | cons c l' ih =>
    intro s
    constructor
    · intro h
      have h' : Lang (RE.cat (RE.chr c) (litCat l' r)) s := h
      rcases lang_cat_inv h' with ⟨s₁, s₂, rfl, h₁, h₂⟩
      have hs₁ := lang_chr_inv h₁
      subst hs₁
      rcases (ih _).mp h₂ with ⟨s₃, rfl, h₃⟩
      exact ⟨s₃, by simp, h₃⟩
    · rintro ⟨s₂, rfl, h⟩
      show Lang (RE.cat (RE.chr c) (litCat l' r)) ((c :: l') ++ s₂)
      have h' : Lang (litCat l' r) (l' ++ s₂) := (ih _).mpr ⟨s₂, rfl, h⟩
      have hcat := Lang.cat (Lang.chr c) h'
      simpa using hcat

theorem lang_star_all {a : RE} {P : Char → Prop}
    (hP : ∀ s, Lang a s → ∀ c ∈ s, P c) :
    ∀ {w : List Char}, Lang (RE.star a) w → ∀ c ∈ w, P c := by
  intro w h
  generalize hr : RE.star a = r at h
  induction h with
  | eps => exact RE.noConfusion hr
  | chr c => exact RE.noConfusion hr
  | digit c hc => exact RE.noConfusion hr
  | cat h₁ h₂ ih₁ ih₂ => exact RE.noConfusion hr
  | altL h₁ ih => exact RE.noConfusion hr
  | altR h₂ ih => exact RE.noConfusion hr
  | starNil =>
    intro c hc
    cases hc
  | starCons h₁ h₂ ih₁ ih₂ =>
    injection hr with ha
    subst ha
    intro c hc
    rcases List.mem_append.mp hc with hc | hc
    · exact hP _ h₁ c hc
    · exact ih₂ rfl c hc

theorem star_digit_all {s : List Char} (h : Lang (RE.star RE.digit) s) :
    ∀ c ∈ s, c.isDigit = true := by
  refine lang_star_all ?_ h
  intro t ht c hc
  rcases lang_digit_inv ht with ⟨c0, hc0, rfl⟩
  simp at hc
  subst hc
  exact hc0

theorem star_digit_build : ∀ (s : List Char),
    (∀ c ∈ s, c.isDigit = true) → Lang (RE.star RE.digit) s := by
  intro s
  induction s with
  | nil => intro _; exact Lang.starNil
  | cons d ds ih =>
    intro h
    have hd : Lang RE.digit [d] := Lang.digit d (h d (by simp))
    have hds : Lang (RE.star RE.digit) ds := ih fun c hc => h c (by simp [hc])
    have := Lang.starCons hd hds
    simpa using this

theorem suffixRE_lang (s : List Char) :
    Lang suffixRE s ↔
      s = [] ∨ ∃ ds, ds ≠ [] ∧ (∀ c ∈ ds, c.isDigit = true) ∧ s = '_' :: ds := by
  constructor
  · intro h
    rcases lang_cat_inv h with ⟨s₁, s₂, rfl, h₁, h₂⟩
    have hs₂ := lang_eps_inv h₂
    subst hs₂
    rw [List.append_nil]
    rcases lang_alt_inv h₁ with h₁ | h₁
    · rcases lang_cat_inv h₁ with ⟨t₁, t₂, rfl, hu, hd⟩
      have ht₁ := lang_chr_inv hu
      subst ht₁
      rcases lang_cat_inv hd with ⟨u₁, u₂, rfl, hdd, he⟩
      have hu₂ := lang_eps_inv he
      subst hu₂
      rcases lang_cat_inv hdd with ⟨v₁, v₂, rfl, h1d, hst⟩
      rcases lang_digit_inv h1d with ⟨c0, hc0, rfl⟩
      refine Or.inr ⟨c0 :: v₂, by simp, ?_, by simp⟩
      intro c hc
      rcases List.mem_cons.mp hc with rfl | hc
      · exact hc0
      · exact star_digit_all hst c hc
    · have := lang_eps_inv h₁
      subst this
      exact Or.inl rfl
  · rintro (rfl | ⟨ds, hne, hdig, rfl⟩)
    · have h0 : Lang suffixRE ([] ++ []) :=
        Lang.cat (Lang.altR Lang.eps) Lang.eps
      simpa using h0
    · cases ds with
      | nil => exact absurd rfl hne
      | cons d ds' =>
        have hd : Lang RE.digit [d] := Lang.digit d (hdig d (by simp))
        have hst : Lang (RE.star RE.digit) ds' :=
          star_digit_build ds' fun c hc => hdig c (by simp [hc])
        have h1 : Lang (RE.cat RE.digit (RE.star RE.digit)) ([d] ++ ds') :=
          Lang.cat hd hst
        have h2 : Lang (RE.cat (RE.cat RE.digit (RE.star RE.digit)) RE.eps)
            (([d] ++ ds') ++ []) := Lang.cat h1 Lang.eps
        have h3 := Lang.cat (Lang.chr '_') h2
        have h4 := Lang.cat (Lang.altL (b := RE.eps) h3) Lang.eps
        simpa [suffixRE] using h4

theorem variantMatches_iff (base name : String) :
    variantMatches base name = true ↔ VariantName base name := by
  have hm : variantMatches base name =
      reAccepts (litCat base.data suffixRE) name.data := by
    unfold variantMatches
    rw [compile_variant]
  rw [hm, reAccepts_iff, litCat_lang]
  constructor
  · rintro ⟨s₂, hs, h⟩
    rcases (suffixRE_lang s₂).mp h with rfl | ⟨ds, hne, hdig, rfl⟩
    · left
      apply String.ext
      simpa using hs
    · right
      exact ⟨ds, hne, hdig, by simpa using hs⟩
  · rintro (rfl | ⟨ds, hne, hdig, hs⟩)
    · exact ⟨[], by simp, (suffixRE_lang []).mpr (Or.inl rfl)⟩
    · exact ⟨'_' :: ds, by simpa using hs,
        (suffixRE_lang _).mpr (Or.inr ⟨ds, hne, hdig, rfl⟩)⟩

theorem mem_insertBySuffix (m a : Mesh) : ∀ (l : List Mesh),
    a ∈ insertBySuffix m l ↔ a = m ∨ a ∈ l := by
  intro l
  induction l with
  | nil => simp [insertBySuffix]
  | cons b bs ih =>
    by_cases hle : suffixNum m.name ≤ suffixNum b.name
    · simp [insertBySuffix, hle]
    · simp [insertBySuffix, hle, ih]
      tauto

theorem insertBySuffix_pairwise (m : Mesh) : ∀ (l : List Mesh),
    List.Pairwise (fun a b => suffixNum a.name ≤ suffixNum b.name) l →
    List.Pairwise (fun a b => suffixNum a.name ≤ suffixNum b.name)
      (insertBySuffix m l) := by
  intro l
  induction l with
  | nil => intro _; simp [insertBySuffix]
  | cons b bs ih =>
    intro hp
    rcases List.pairwise_cons.mp hp with ⟨hb, hbs⟩
    by_cases hle : suffixNum m.name ≤ suffixNum b.name
    · rw [insertBySuffix, if_pos hle]
      refine List.pairwise_cons.mpr ⟨?_, hp⟩
      intro x hx
      rcases List.mem_cons.mp hx with rfl | hx
      · exact hle
      · exact le_trans hle (hb x hx)
    · rw [insertBySuffix, if_neg hle]
      refine List.pairwise_cons.mpr ⟨?_, ih hbs⟩
      intro x hx
      rcases (mem_insertBySuffix m x bs).mp hx with rfl | hx
      · exact le_of_not_le hle
      · exact hb x hx

theorem sortBySuffix_pairwise : ∀ (l : List Mesh),
    List.Pairwise (fun a b => suffixNum a.name ≤ suffixNum b.name)
      (sortBySuffix l) := by
  intro l
  induction l with
  | nil => simp [sortBySuffix]
  | cons a rest ih => exact insertBySuffix_pairwise a _ ih

theorem mem_sortBySuffix (a : Mesh) : ∀ (l : List Mesh),
    a ∈ sortBySuffix l ↔ a ∈ l := by
  intro l
  induction l with
  | nil => simp [sortBySuffix]
  | cons b bs ih =>
    rw [sortBySuffix, mem_insertBySuffix]
    simp [ih]

theorem discover_mem (scene : List Mesh) (base : String) (m : Mesh) :
    m ∈ discoverMeshVariants scene base ↔
      m ∈ scene ∧ m.isMesh = true ∧ VariantName base m.name := by
  unfold discoverMeshVariants
  rw [mem_sortBySuffix, List.mem_filter]
  simp only [Bool.and_eq_true, variantMatches_iff]

/-- C10: for every base-name string, including ones containing regex
metacharacters such as plus (the configured name +Ymotor), variant
discovery escapes the name before building its matcher, so constructing
the matcher never throws (the compiled pattern is always some), and the
name is matched purely literally: a mesh is selected by discovery
exactly when its name equals the base name or the base name followed by
an underscore and a nonempty digit group. -/
theorem c10_escaped_matcher_literal :
    ∀ base name : String,
      (compileVariantPattern base).isSome = true ∧
      (variantMatches base name = true ↔ VariantName base name) ∧
      (∀ (scene : List Mesh) (m : Mesh),
        m ∈ discoverMeshVariants scene base ↔
          m ∈ scene ∧ m.isMesh = true ∧ VariantName base m.name) := by
  intro base name
  refine ⟨?_, variantMatches_iff base name, fun scene m => discover_mem scene base m⟩
  rw [compile_variant]
  rfl

/-- C1 counterexample: the claim orders members by the numeric suffix
relative to the base with the unsuffixed name first (key 0), but for the
base name part_2 over meshes part_2 and part_2_1 the code sorts by the
trailing digit group of the whole name (part_2 gets key 2, part_2_1 gets
key 1), so the unsuffixed name comes last and the sequence violates the
claimed key order. -/
theorem c1_counterexample :
    discoverMeshVariants [mk0 0 "part_2", mk0 1 "part_2_1"] "part_2" =
      [mk0 1 "part_2_1", mk0 0 "part_2"] ∧
    ¬ List.Pairwise
        (fun a b =>
          specSuffixKey "part_2" a.name ≤ specSuffixKey "part_2" b.name)
        (discoverMeshVariants [mk0 0 "part_2", mk0 1 "part_2_1"] "part_2") := by
  constructor
  · rfl
  · decide

/-- C1 amended: resolving a base name returns exactly the meshes whose
name equals the base or the base plus an underscore and a digit group
(never a name like b2 or a non-numeric suffix), and the returned
sequence is sorted ascending by the numeric value of the trailing digit
group of the full mesh name (0 when there is none) — which agrees with
the claimed unsuffixed-first suffix order whenever the base name itself
does not end in an underscore-digit group; over the primitives wing,
wing_1, wing_2, fuselage, resolving wing returns wing, wing_1, wing_2 in
that order. -/
theorem c1_discover_membership_and_order :
    (∀ (base : String) (scene : List Mesh) (m : Mesh),
        m ∈ discoverMeshVariants scene base ↔
          m ∈ scene ∧ m.isMesh = true ∧ VariantName base m.name) ∧
    (∀ (base : String) (scene : List Mesh),
        List.Pairwise (fun a b => suffixNum a.name ≤ suffixNum b.name)
          (discoverMeshVariants scene base)) ∧
    discoverMeshVariants sceneWing "wing" =
      [mk0 0 "wing", mk0 1 "wing_1", mk0 2 "wing_2"] := by
  refine ⟨fun base scene m => discover_mem scene base m,
    fun base scene => sortBySuffix_pairwise _, ?_⟩
  rfl

theorem lookupA_mapSet {κ α : Type} [DecidableEq κ] (k k0 : κ) (v : α) :
    ∀ (m : List (κ × α)),
      lookupA (mapSet m k v) k0 = if k = k0 then some v else lookupA m k0 := by
  intro m
  induction m with
  | nil => simp [mapSet, lookupA]
  | cons p rest ih =>
    rcases p with ⟨pk, pv⟩
    by_cases hk : pk = k
    · subst hk
      by_cases h0 : pk = k0 <;> simp [mapSet, lookupA, h0]
    · have hms : mapSet ((pk, pv) :: rest) k v = (pk, pv) :: mapSet rest k v := by
        simp [mapSet, hk]
      rw [hms]
      by_cases hp0 : pk = k0
      · subst hp0
        have hk0 : ¬ k = pk := fun h => hk h.symm
        simp [lookupA, hk0]
      · simp [lookupA, hp0, ih]

theorem buildBaseStep_lookup (scene : List Mesh)
    (acc : List (String × List Mesh)) (bn b : String) :
    lookupA (buildBaseStep scene acc bn) b =
      if bn = b ∧ (discoverMeshVariants scene bn).isEmpty = false
      then some (discoverMeshVariants scene bn)
      else lookupA acc b := by
  unfold buildBaseStep
  by_cases he : (discoverMeshVariants scene bn).isEmpty = true
  · rw [if_pos he, if_neg (by simp [he])]
  · rw [if_neg he, lookupA_mapSet]
    by_cases hbn : bn = b
    · rw [if_pos hbn, if_pos ⟨hbn, by simpa using he⟩]
    · rw [if_neg hbn, if_neg (by simp [hbn])]

theorem buildBase_fold_preserve (scene : List Mesh) (b : String) :
    ∀ (names : List String) (acc : List (String × List Mesh)),
      lookupA acc b = some (discoverMeshVariants scene b) →
      lookupA (names.foldl (buildBaseStep scene) acc) b =
        some (discoverMeshVariants scene b) := by
  intro names
  induction names with
  | nil => intro acc h; exact h
  | cons bn ns ih =>
    intro acc h
    rw [List.foldl_cons]
    apply ih
    rw [buildBaseStep_lookup]
    by_cases hc : bn = b ∧ (discoverMeshVariants scene bn).isEmpty = false
    · rw [if_pos hc, hc.1]
    · rw [if_neg hc]; exact h

theorem buildBase_fold_mem (scene : List Mesh) (b : String)
    (hb : (discoverMeshVariants scene b).isEmpty = false) :
    ∀ (names : List String) (acc : List (String × List Mesh)),
      b ∈ names →
      lookupA (names.foldl (buildBaseStep scene) acc) b =
        some (discoverMeshVariants scene b) := by
  intro names
  induction names with
  | nil => intro acc h; cases h
  | cons bn ns ih =>
    intro acc hmem
    rw [List.foldl_cons]
    rcases List.mem_cons.mp hmem with rfl | hmem
    · apply buildBase_fold_preserve
      rw [buildBaseStep_lookup, if_pos ⟨rfl, hb⟩]
    · exact ih _ hmem

theorem buildBase_fold_none (scene : List Mesh) (b : String)
    (hb : discoverMeshVariants scene b = []) :
    ∀ (names : List String) (acc : List (String × List Mesh)),
      lookupA acc b = none →
      lookupA (names.foldl (buildBaseStep scene) acc) b = none := by
  intro names
  induction names with
  | nil => intro acc h; exact h
  | cons bn ns ih =>
    intro acc h
    rw [List.foldl_cons]
    apply ih
    rw [buildBaseStep_lookup]
    by_cases hc : bn = b ∧ (discoverMeshVariants scene bn).isEmpty = false
    · exfalso
      rcases hc with ⟨rfl, hne⟩
      rw [hb] at hne
      simp at hne
    · rw [if_neg hc]; exact h

/-- C6 counterexample: the configured base name ghost discovers zero
meshes; the claim requires an empty group mapped under it (a later
lookup yielding an empty set), but buildGroups skips the name entirely,
so the lookup yields null (none), not an empty list. -/
theorem c6_counterexample :
    lookupA (buildBaseGroups cfgGhost sceneCapA) "ghost" = none ∧
    lookupA (buildBaseGroups cfgGhost sceneCapA) "ghost" ≠
      some ([] : List Mesh) := by
  refine ⟨rfl, ?_⟩
  intro h
  rw [show lookupA (buildBaseGroups cfgGhost sceneCapA) "ghost" =
    (none : Option (List Mesh)) from rfl] at h
  cases h

/-- C6 amended: a configured base name that discovers zero meshes is
skipped with a warning and no exception: no entry is mapped under that
name, so a later lookup returns null (none) rather than an empty set,
while every other configured name with a nonempty discovery is still
built and maps to its discovered list. -/
theorem c6_empty_base_skipped :
    (∀ (cfg : MeshGroupConfig) (scene : List Mesh) (b : String),
        discoverMeshVariants scene b = [] →
        lookupA (buildBaseGroups cfg scene) b = none) ∧
    (∀ (cfg : MeshGroupConfig) (scene : List Mesh) (b : String),
        b ∈ cfg.baseNames → discoverMeshVariants scene b ≠ [] →
        lookupA (buildBaseGroups cfg scene) b =
          some (discoverMeshVariants scene b)) := by
  constructor
  · intro cfg scene b hb
    exact buildBase_fold_none scene b hb cfg.baseNames [] rfl
  · intro cfg scene b hmem hb
    exact buildBase_fold_mem scene b (by simpa using hb) cfg.baseNames [] hmem

/-- C6 witness: over the ghost fixture, the empty name resolves to none
while the nonempty wing name is still built. -/
theorem c6_empty_base_skipped_witness :
    lookupA (buildBaseGroups cfgGhost sceneCapA) "ghost" = none ∧
    lookupA (buildBaseGroups cfgGhost sceneCapA) "wing" =
      some (discoverMeshVariants sceneCapA "wing") :=
  ⟨c6_empty_base_skipped.1 cfgGhost sceneCapA "ghost" rfl,
   c6_empty_base_skipped.2 cfgGhost sceneCapA "wing" (by decide)
     (by intro h; rw [show discoverMeshVariants sceneCapA "wing" =
       [mk0 0 "wing"] from rfl] at h; cases h)⟩

/-- C5 counterexample: over a loader where the name g is both a base
group (one mesh) and an assembled group (empty), getAllMeshesForName
returns the base-group list, not the assembled one, so composite groups
are not tried first; and for a name in neither map it returns null
(none), not an empty list. -/
theorem c5_counterexample :
    getAllMeshesForName loaderBoth "g" = some [mk0 0 "g"] ∧
    getAssembledGroupMeshes loaderBoth "g" = some ([] : List Mesh) ∧
    getAllMeshesForName loaderBoth "g" ≠
      getAssembledGroupMeshes loaderBoth "g" ∧
    getAllMeshesForName loaderBoth "zzz" = none := by
  refine ⟨rfl, rfl, ?_, rfl⟩
  intro h
  rw [show getAllMeshesForName loaderBoth "g" = some [mk0 0 "g"] from rfl,
    show getAssembledGroupMeshes loaderBoth "g" = some ([] : List Mesh)
      from rfl] at h
  simp at h

/-- C5 amended: getAllMeshesForName tries the base-group map first and
the assembled-group map second, and returns null (none, with no
diagnostic) when the name is in neither. -/
theorem c5_lookup_base_first :
    ∀ (st : LoaderState) (name : String),
      ((lookupA st.groups name).isSome = true →
        getAllMeshesForName st name = lookupA st.groups name) ∧
      ((lookupA st.groups name).isSome = false →
        (lookupA st.assembled name).isSome = true →
        getAllMeshesForName st name = lookupA st.assembled name) ∧
      ((lookupA st.groups name).isSome = false →
        (lookupA st.assembled name).isSome = false →
        getAllMeshesForName st name = none) := by
  intro st name
  unfold getAllMeshesForName getMeshes
  refine ⟨?_, ?_, ?_⟩
  · intro h1
    rw [if_pos h1]
  · intro h1 h2
    rw [if_neg (by simp [h1]), if_pos h2]
  · intro h1 h2
    rw [if_neg (by simp [h1]), if_neg (by simp [h2])]

/-- C5 witness: the three dispatch branches at the concrete fixture. -/
theorem c5_lookup_base_first_witness :
    getAllMeshesForName loaderBoth "g" = lookupA loaderBoth.groups "g" ∧
    getAllMeshesForName loaderBoth "h" =
      lookupA loaderBoth.assembled "h" ∧
    getAllMeshesForName loaderBoth "zzz" = none := by
  refine ⟨(c5_lookup_base_first loaderBoth "g").1 rfl, ?_, ?_⟩
  · exact (c5_lookup_base_first loaderBoth "h").2.1 rfl rfl
  · exact (c5_lookup_base_first loaderBoth "zzz").2.2 rfl rfl


theorem filter_length_mono (p q : String → Bool)
    (himp : ∀ a, p a = true → q a = true) :
    ∀ (l : List String), (l.filter p).length ≤ (l.filter q).length := by
  intro l
  induction l with
  | nil => simp
  | cons y t ih =>
    rw [List.filter_cons, List.filter_cons]
    cases hpy : p y
    · rw [if_neg (by simp)]
      cases hqy : q y
      · rw [if_neg (by simp)]
        exact ih
      · rw [if_pos (by simp)]
        simp
        omega
    · rw [if_pos (by simp), if_pos (by simp [himp y hpy])]
      simpa using ih

theorem filter_length_lt (p q : String → Bool)
    (himp : ∀ a, p a = true → q a = true) :
    ∀ (l : List String) (x : String), x ∈ l → p x = false → q x = true →
    (l.filter p).length < (l.filter q).length := by
  intro l
  induction l with
  | nil => intro x hx; cases hx
  | cons y t ih =>
    intro x hx hpx hqx
    rw [List.filter_cons, List.filter_cons]
    rcases List.mem_cons.mp hx with rfl | hx
    · rw [if_neg (by simp [hpx]), if_pos (by simp [hqx])]
      have := filter_length_mono p q himp t
      simp
      omega
    · cases hpy : p y
      · rw [if_neg (by simp)]
        cases hqy : q y
        · rw [if_neg (by simp)]
          exact ih x hx hpx hqx
        · rw [if_pos (by simp)]
          have := ih x hx hpx hqx
          simp
          omega
      · rw [if_pos (by simp), if_pos (by simp [himp y hpy])]
        have := ih x hx hpx hqx
        simpa using Nat.succ_lt_succ this

theorem cfgLookup_isSome_mem (cfgs : List ACfg) (name : String)
    (h : (cfgLookup cfgs name).isSome = true) : name ∈ cfgNames cfgs := by
  unfold cfgLookup at h
  cases hf : (cfgs.filter fun c => c.name ≠ "").reverse.find?
      (fun c => c.name = name) with
  | none => rw [hf] at h; cases h
  | some c =>
    have hpred := List.find?_some hf
    have hname : c.name = name := by simpa using hpred
    have hmem : c ∈ (cfgs.filter fun c => c.name ≠ "").reverse :=
      List.mem_of_find?_eq_some hf
    rw [List.mem_reverse] at hmem
    unfold cfgNames
    rw [List.mem_dedup]
    exact hname ▸ List.mem_map_of_mem (fun c => c.name) hmem

theorem cfgMeasure_cons_lt (cfgs : List ACfg) (name : String)
    (resolving : List String)
    (hc : (cfgLookup cfgs name).isSome = true) (hr : name ∉ resolving) :
    cfgMeasure cfgs (name :: resolving) < cfgMeasure cfgs resolving := by
  unfold cfgMeasure
  apply filter_length_lt
  · intro a ha
    simp only [decide_eq_true_eq] at ha ⊢
    intro hmem
    exact ha (List.mem_cons_of_mem name hmem)
  · exact cfgLookup_isSome_mem cfgs name hc
  · simp
  · simpa using hr

theorem mem_le_foldr_max : ∀ (l : List Nat) (x : Nat), x ∈ l →
    x ≤ l.foldr max 0 := by
  intro l
  induction l with
  | nil => intro x hx; cases hx
  | cons y t ih =>
    intro x hx
    rcases List.mem_cons.mp hx with rfl | hx
    · exact le_max_left _ _
    · exact le_trans (ih x hx) (le_max_right _ _)

theorem cfgLookup_groups_le (cfgs : List ACfg) (name : String) (c : ACfg)
    (h : cfgLookup cfgs name = some c) :
    c.groups.length ≤ maxChildren cfgs := by
  unfold cfgLookup at h
  have hmem : c ∈ (cfgs.filter fun c => c.name ≠ "").reverse :=
    List.mem_of_find?_eq_some h
  rw [List.mem_reverse] at hmem
  have hc : c ∈ cfgs := List.mem_of_mem_filter hmem
  exact mem_le_foldr_max _ _ (List.mem_map_of_mem (fun c => c.groups.length) hc)

theorem resolveFn_isSome (cfgs : List ACfg) (baseG : List (String × List Mesh)) :
    ∀ (fuel : Nat) (resolving : List String)
      (cache : List (String × List Mesh)) (arg : String ⊕ List String),
      (match arg with
       | Sum.inl _ =>
         cfgMeasure cfgs resolving * (maxChildren cfgs + 2) + 1 ≤ fuel
       | Sum.inr ns =>
         ns.length ≤ maxChildren cfgs ∧
           cfgMeasure cfgs resolving * (maxChildren cfgs + 2) + ns.length + 1 ≤
             fuel) →
      (resolveFn cfgs baseG fuel resolving cache arg).isSome = true := by
  intro fuel
  induction fuel with
  | zero =>
    intro resolving cache arg hpre
    exfalso
    cases arg with
    | inl name =>
      have h : cfgMeasure cfgs resolving * (maxChildren cfgs + 2) + 1 ≤ 0 := hpre
      omega
    | inr ns =>
      have h := hpre.2
      omega
  | succ f ih =>
    intro resolving cache arg hpre
    cases arg with
    | inl name =>
      have hpre' :
          cfgMeasure cfgs resolving * (maxChildren cfgs + 2) + 1 ≤ f + 1 := hpre
      rw [resolveFn]
      cases hcache : lookupA cache name with
      | some ms => simp
      | none =>
        simp only
        by_cases hres : name ∈ resolving
        · simp [hres]
        · rw [if_neg hres]
          cases hcfg : cfgLookup cfgs name with
          | none =>
            cases hbase : lookupA baseG name with
            | some ms => simp
            | none => simp
          | some cfg =>
            simp only
            have hdec := cfgMeasure_cons_lt cfgs name resolving
              (by rw [hcfg]; rfl) hres
            have hlen := cfgLookup_groups_le cfgs name cfg hcfg
            have hchild := ih (name :: resolving) cache (Sum.inr cfg.groups)
              (by
                refine ⟨hlen, ?_⟩
                have hmul : (cfgMeasure cfgs (name :: resolving) + 1) *
                    (maxChildren cfgs + 2) ≤
                    cfgMeasure cfgs resolving * (maxChildren cfgs + 2) :=
                  Nat.mul_le_mul_right _ hdec
                rw [Nat.add_mul] at hmul
                omega)
            cases hrc : resolveFn cfgs baseG f (name :: resolving) cache
                (Sum.inr cfg.groups) with
            | none => rw [hrc] at hchild; cases hchild
            | some pr =>
              rcases pr with ⟨nested, cache'⟩
              simp
    | inr ns =>
      cases ns with
      | nil => rw [resolveFn]; rfl
      | cons n ns' =>
        obtain ⟨hlen, hfuel⟩ := hpre
        have h1 := ih resolving cache (Sum.inl n)
          (by
            have : cfgMeasure cfgs resolving * (maxChildren cfgs + 2) + 1 ≤ f := by
              simp at hlen hfuel ⊢
              omega
            exact this)
        cases hr1 : resolveFn cfgs baseG f resolving cache (Sum.inl n) with
        | none => rw [hr1] at h1; cases h1
        | some pr =>
          rcases pr with ⟨ms, cache'⟩
          have h2 := ih resolving cache' (Sum.inr ns')
            (by
              refine ⟨?_, ?_⟩
              · simp at hlen
                omega
              · simp at hfuel
                omega)
          cases hr2 : resolveFn cfgs baseG f resolving cache' (Sum.inr ns') with
          | none => rw [hr2] at h2; cases h2
          | some pr2 =>
            rcases pr2 with ⟨rest, cache''⟩
            rw [resolveFn, hr1]
            show (match resolveFn cfgs baseG f resolving cache'
                (Sum.inr ns') with
              | none => none
              | some (rest, cache'') =>
                some (ms ++ rest, cache'')).isSome = true
            rw [hr2]
            rfl

/-- C2: resolving any group name, under any assembled-group
configuration and base-group map (cycles included), terminates and
returns a finite mesh list without throwing: the fuel-indexed embedding
never exhausts the fuel buildAssembledGroups supplies.  Moreover, over
the concrete cyclic configuration A -> B -> A (with each group also
holding one base child), the cyclic branch contributes zero meshes
while the remaining children still resolve: A flattens to exactly the
meshes of base2 and base1, and B to the mesh of base2. -/
theorem c2_cycle_terminates :
    (∀ (cfgs : List ACfg) (baseG : List (String × List Mesh))
        (cache : List (String × List Mesh)) (name : String),
        (resolveAssembled cfgs baseG (topFuel cfgs) [] cache name).isSome =
          true) ∧
    buildAssembledGroups cfgsCyc baseGCyc =
      [("A", [meshB2, meshB1]), ("B", [meshB2])] := by
  constructor
  · intro cfgs baseG cache name
    apply resolveFn_isSome
    show cfgMeasure cfgs [] * (maxChildren cfgs + 2) + 1 ≤ topFuel cfgs
    unfold topFuel
    omega
  · rfl

/-- C2 witness: the termination bound applied to the cyclic
configuration itself. -/
theorem c2_cycle_terminates_witness :
    (resolveAssembled cfgsCyc baseGCyc (topFuel cfgsCyc) [] [] "A").isSome =
      true :=
  c2_cycle_terminates.1 cfgsCyc baseGCyc [] "A"


theorem dedup_fold_nodup : ∀ (l : List Mesh) (acc : List Mesh × List Nat),
    acc.2 = acc.1.map Mesh.uuid → acc.2.Nodup →
    (l.foldl dedupStep acc).2 = (l.foldl dedupStep acc).1.map Mesh.uuid ∧
      (l.foldl dedupStep acc).2.Nodup := by
  intro l
  induction l with
  | nil => intro acc h1 h2; exact ⟨h1, h2⟩
  | cons m rest ih =>
    intro acc h1 h2
    rw [List.foldl_cons]
    apply ih
    · unfold dedupStep
      by_cases hc : acc.2.contains m.uuid = true
      · rw [if_pos hc]; exact h1
      · rw [if_neg hc]
        simp [h1]
    · unfold dedupStep
      by_cases hc : acc.2.contains m.uuid = true
      · rw [if_pos hc]; exact h2
      · rw [if_neg hc]
        have hnm : m.uuid ∉ acc.2 := by
          intro hmem
          simp at hc
          exact hc hmem
        simp [List.nodup_append, h2, hnm]

theorem dedupByUuid_nodup (l : List Mesh) : NodupUuid (dedupByUuid l) := by
  unfold NodupUuid dedupByUuid
  have h := dedup_fold_nodup l ([], []) rfl List.nodup_nil
  rw [← h.1]
  exact h.2

theorem cfgLookup_isSome_of_mem (cfgs : List ACfg) (c : ACfg)
    (hc : c ∈ cfgs) (hne : c.name ≠ "") :
    (cfgLookup cfgs c.name).isSome = true := by
  unfold cfgLookup
  rw [List.find?_isSome]
  exact ⟨c, by rw [List.mem_reverse]; exact List.mem_filter.mpr ⟨hc, by simpa⟩,
    by simp⟩

theorem resolveFn_nodup (cfgs : List ACfg) (baseG : List (String × List Mesh)) :
    ∀ (fuel : Nat) (resolving : List String)
      (cache : List (String × List Mesh)) (arg : String ⊕ List String)
      (res : List Mesh × List (String × List Mesh)),
      resolveFn cfgs baseG fuel resolving cache arg = some res →
      CacheInv cfgs cache →
      CacheInv cfgs res.2 ∧
        (∀ name, arg = Sum.inl name →
          (cfgLookup cfgs name).isSome = true → NodupUuid res.1) := by
  intro fuel
  induction fuel with
  | zero =>
    intro resolving cache arg res hres hinv
    rw [resolveFn] at hres
    cases hres
  | succ f ih =>
    intro resolving cache arg res hres hinv
    cases arg with
    | inl name =>
      rw [resolveFn] at hres
      cases hcache : lookupA cache name with
      | some ms =>
        rw [hcache] at hres
        injection hres with hres
        subst hres
        refine ⟨hinv, ?_⟩
        intro name' hn hcfg
        injection hn with hn
        subst hn
        exact hinv name ms hcache hcfg
      | none =>
        rw [hcache] at hres
        by_cases hresv : name ∈ resolving
        · rw [if_pos hresv] at hres
          injection hres with hres
          subst hres
          exact ⟨hinv, fun _ _ _ => by simp [NodupUuid]⟩
        · rw [if_neg hresv] at hres
          cases hcfg : cfgLookup cfgs name with
          | none =>
            rw [hcfg] at hres
            cases hbase : lookupA baseG name with
            | some ms =>
              rw [hbase] at hres
              injection hres with hres
              subst hres
              refine ⟨?_, ?_⟩
              · intro n ms' hl hc
                rw [lookupA_mapSet] at hl
                by_cases hn : name = n
                · subst hn
                  rw [hcfg] at hc
                  cases hc
                · rw [if_neg hn] at hl
                  exact hinv n ms' hl hc
              · intro name' hn hc
                injection hn with hn
                subst hn
                rw [hcfg] at hc
                cases hc
            | none =>
              rw [hbase] at hres
              injection hres with hres
              subst hres
              exact ⟨hinv, fun _ _ _ => by simp [NodupUuid]⟩
          | some cfg =>
            rw [hcfg] at hres
            have hres2 : (match resolveFn cfgs baseG f (name :: resolving)
                cache (Sum.inr cfg.groups) with
              | none => none
              | some (nested, cache') =>
                some (dedupByUuid
                    ((cfg.baseNames.flatMap fun bn =>
                      (lookupA baseG bn).getD []) ++ nested),
                  mapSet cache' name
                    (dedupByUuid
                      ((cfg.baseNames.flatMap fun bn =>
                        (lookupA baseG bn).getD []) ++ nested)))) =
                some res := hres
            cases hrc : resolveFn cfgs baseG f (name :: resolving) cache
                (Sum.inr cfg.groups) with
            | none =>
              rw [hrc] at hres2
              cases hres2
            | some pr =>
              rcases pr with ⟨nested, cache'⟩
              rw [hrc] at hres2
              injection hres2 with hres2
              subst hres2
              have hrec := ih (name :: resolving) cache (Sum.inr cfg.groups)
                (nested, cache') hrc hinv
              refine ⟨?_, fun _ _ _ => dedupByUuid_nodup _⟩
              intro n ms' hl hc
              rw [lookupA_mapSet] at hl
              by_cases hn : name = n
              · rw [if_pos hn] at hl
                injection hl with hl
                subst hl
                exact dedupByUuid_nodup _
              · rw [if_neg hn] at hl
                exact hrec.1 n ms' hl hc
    | inr ns =>
      cases ns with
      | nil =>
        rw [resolveFn] at hres
        injection hres with hres
        subst hres
        exact ⟨hinv, fun _ hn => by cases hn⟩
      | cons n ns' =>
        rw [resolveFn] at hres
        cases hr1 : resolveFn cfgs baseG f resolving cache (Sum.inl n) with
        | none =>
          rw [hr1] at hres
          cases hres
        | some pr =>
          rcases pr with ⟨ms, cache'⟩
          rw [hr1] at hres
          have hres2 : (match resolveFn cfgs baseG f resolving cache'
              (Sum.inr ns') with
            | none => none
            | some (rest, cache'') => some (ms ++ rest, cache'')) =
              some res := hres
          cases hr2 : resolveFn cfgs baseG f resolving cache' (Sum.inr ns') with
          | none =>
            rw [hr2] at hres2
            cases hres2
          | some pr2 =>
            rcases pr2 with ⟨rest, cache''⟩
            rw [hr2] at hres2
            injection hres2 with hres2
            subst hres2
            have h1 := ih resolving cache (Sum.inl n) (ms, cache') hr1 hinv
            have h2 := ih resolving cache' (Sum.inr ns') (rest, cache'') hr2 h1.1
            exact ⟨h2.1, fun _ hn => by cases hn⟩

theorem buildAsm_fold_nodup (cfgs : List ACfg)
    (baseG : List (String × List Mesh)) :
    ∀ (l : List ACfg)
      (acc : List (String × List Mesh) × List (String × List Mesh)),
      (∀ c ∈ l, c ∈ cfgs) →
      (∀ n ms, lookupA acc.1 n = some ms → NodupUuid ms) →
      CacheInv cfgs acc.2 →
      ∀ n ms,
        lookupA (l.foldl (buildAsmStep cfgs baseG) acc).1 n = some ms →
        NodupUuid ms := by
  intro l
  induction l with
  | nil => intro acc _ hvals _ n ms hl; exact hvals n ms hl
  | cons c rest ih =>
    intro acc hsub hvals hinv n ms hl
    rw [List.foldl_cons] at hl
    have hc : c ∈ cfgs := hsub c (by simp)
    have hsub' : ∀ x ∈ rest, x ∈ cfgs := fun x hx => hsub x (by simp [hx])
    by_cases hname : c.name = ""
    · rw [show buildAsmStep cfgs baseG acc c = acc from by
        unfold buildAsmStep; rw [if_pos hname]] at hl
      exact ih acc hsub' hvals hinv n ms hl
    · have hstep : buildAsmStep cfgs baseG acc c =
          match resolveAssembled cfgs baseG (topFuel cfgs) [] acc.2 c.name with
          | some (ms, cache') => (mapSet acc.1 c.name ms, cache')
          | none => acc := by
        unfold buildAsmStep
        rw [if_neg hname]
      cases hr : resolveAssembled cfgs baseG (topFuel cfgs) [] acc.2 c.name with
      | none =>
        rw [hstep, hr] at hl
        exact ih acc hsub' hvals hinv n ms hl
      | some pr =>
        rcases pr with ⟨ms0, cache'⟩
        rw [hstep, hr] at hl
        have hrec := resolveFn_nodup cfgs baseG (topFuel cfgs) [] acc.2
          (Sum.inl c.name) (ms0, cache') hr hinv
        have hms0 : NodupUuid ms0 :=
          hrec.2 c.name rfl (cfgLookup_isSome_of_mem cfgs c hc hname)
        refine ih (mapSet acc.1 c.name ms0, cache') hsub' ?_ hrec.1 n ms hl
        intro n' ms' hl'
        rw [lookupA_mapSet] at hl'
        by_cases hn : c.name = n'
        · rw [if_pos hn] at hl'
          injection hl' with hl'
          subst hl'
          exact hms0
        · rw [if_neg hn] at hl'
          exact hvals n' ms' hl'

/-- C3: every assembled group built by buildAssembledGroups contains
each primitive identity at most once (deduplication is by uuid), under
every configuration, including composites that reach the same base
group along several paths; and deduplication is by uuid, not name: the
composite D that references the base group bx twice flattens to the two
distinct same-named meshes of bx exactly once each. -/
theorem c3_members_unique :
    (∀ (cfgs : List ACfg) (baseG : List (String × List Mesh)) (n : String)
        (ms : List Mesh),
        lookupA (buildAssembledGroups cfgs baseG) n = some ms →
        NodupUuid ms) ∧
    buildAssembledGroups cfgsDup baseGDup = [("D", [meshX20, meshX21])] := by
  constructor
  · intro cfgs baseG n ms hl
    unfold buildAssembledGroups at hl
    exact buildAsm_fold_nodup cfgs baseG cfgs ([], [])
      (fun c hc => hc) (fun n ms h => by cases h) (fun n ms h => by cases h)
      n ms hl
  · rfl

/-- C3 witness: the duplicate-reference composite resolves with each
uuid exactly once. -/
theorem c3_members_unique_witness :
    NodupUuid [meshX20, meshX21] :=
  c3_members_unique.1 cfgsDup baseGDup "D" [meshX20, meshX21]
    (by rw [c3_members_unique.2]; rfl)


theorem foldl_mapSet_preserve {β : Type} (key : Mesh → Nat) (val : Mesh → β) :
    ∀ (l : List Mesh) (acc : List (Nat × β)) (k : Nat) (v : β),
      (∀ y ∈ l, key y ≠ k) → lookupA acc k = some v →
      lookupA (l.foldl (fun a x => mapSet a (key x) (val x)) acc) k = some v := by
  intro l
  induction l with
  | nil => intro acc k v _ h; exact h
  | cons x xs ih =>
    intro acc k v hk h
    rw [List.foldl_cons]
    apply ih _ _ _ (fun y hy => hk y (by simp [hy]))
    rw [lookupA_mapSet, if_neg (hk x (by simp))]
    exact h

theorem foldl_mapSet_lookup {β : Type} (key : Mesh → Nat) (val : Mesh → β) :
    ∀ (l : List Mesh) (acc : List (Nat × β)) (m : Mesh),
      (l.map key).Nodup → m ∈ l →
      lookupA (l.foldl (fun a x => mapSet a (key x) (val x)) acc) (key m) =
        some (val m) := by
  intro l
  induction l with
  | nil => intro acc m _ hm; cases hm
  | cons x xs ih =>
    intro acc m hnd hm
    rw [List.map_cons, List.nodup_cons] at hnd
    rw [List.foldl_cons]
    rcases List.mem_cons.mp hm with rfl | hm
    · apply foldl_mapSet_preserve
      · intro y hy hkey
        exact hnd.1 (hkey ▸ List.mem_map_of_mem key hy)
      · rw [lookupA_mapSet, if_pos rfl]
    · exact ih _ m hnd.2 hm

theorem vmCapture_positions (scene : List Mesh) :
    ∀ (l : List Mesh) (vm : VMState),
      (l.foldl (vmCaptureStep scene) vm).originalPositions =
        l.foldl
          (fun a x => mapSet a (getLive scene x).uuid (getLive scene x).position)
          vm.originalPositions := by
  intro l
  induction l with
  | nil => intro vm; rfl
  | cons x xs ih =>
    intro vm
    rw [List.foldl_cons, List.foldl_cons, ih]
    rfl

theorem vmCapture_props (scene : List Mesh) :
    ∀ (l : List Mesh) (vm : VMState),
      (l.foldl (vmCaptureStep scene) vm).originalMaterialProps =
        l.foldl
          (fun a x => mapSet a (getLive scene x).uuid
            ((getLive scene x).transparent, (getLive scene x).opacity))
          vm.originalMaterialProps := by
  intro l
  induction l with
  | nil => intro vm; rfl
  | cons x xs ih =>
    intro vm
    rw [List.foldl_cons, List.foldl_cons, ih]
    rfl

/-- C8 counterexample: capture over the perturbed scene overwrites the
snapshot taken by the first capture: after the wing moved to position
(5, 0, 0), a second capture stores the perturbed position over the
original (0, 0, 0), so the stored originalLocalPosition does not remain
the value observed at the first capture. -/
theorem c8_counterexample :
    lookupA vmFirst.originalPositions 0 = some ((0 : ℚ), (0 : ℚ), (0 : ℚ)) ∧
    lookupA vmSecond.originalPositions 0 = some ((5 : ℚ), (0 : ℚ), (0 : ℚ)) ∧
    lookupA vmSecond.originalPositions 0 ≠ lookupA vmFirst.originalPositions 0 := by
  refine ⟨rfl, rfl, ?_⟩
  intro h
  rw [show lookupA vmSecond.originalPositions 0 =
        some ((5 : ℚ), (0 : ℚ), (0 : ℚ)) from rfl,
      show lookupA vmFirst.originalPositions 0 =
        some ((0 : ℚ), (0 : ℚ), (0 : ℚ)) from rfl] at h
  simp [Prod.ext_iff] at h

/-- C8 amended: capture is not idempotent; invoking it again after the
scene was perturbed re-baselines: for every tracked mesh the stored
originalLocalPosition, originalOpacity and originalTransparency equal
the values current at this capture, regardless of what snapshot already
existed. -/
theorem c8_capture_rebaselines :
    ∀ (st : LoaderState) (scene : List Mesh) (vm : VMState) (m : Mesh),
      ((trackedMeshes st).map fun x => (getLive scene x).uuid).Nodup →
      m ∈ trackedMeshes st →
      lookupA (vmCapture st scene vm).originalPositions
          (getLive scene m).uuid = some (getLive scene m).position ∧
      lookupA (vmCapture st scene vm).originalMaterialProps
          (getLive scene m).uuid =
        some ((getLive scene m).transparent, (getLive scene m).opacity) := by
  intro st scene vm m hnd hm
  unfold vmCapture
  rw [vmCapture_positions scene, vmCapture_props scene]
  exact ⟨foldl_mapSet_lookup _ _ _ _ m hnd hm,
    foldl_mapSet_lookup _ _ _ _ m hnd hm⟩

/-- C8 witness: the second capture over the perturbed scene stores the
perturbed values for the tracked wing. -/
theorem c8_capture_rebaselines_witness :
    lookupA (vmCapture loaderW1 sceneCapB vmFirst).originalPositions
        (getLive sceneCapB (mk0 0 "wing")).uuid =
      some (getLive sceneCapB (mk0 0 "wing")).position ∧
    lookupA (vmCapture loaderW1 sceneCapB vmFirst).originalMaterialProps
        (getLive sceneCapB (mk0 0 "wing")).uuid =
      some ((getLive sceneCapB (mk0 0 "wing")).transparent,
        (getLive sceneCapB (mk0 0 "wing")).opacity) :=
  c8_capture_rebaselines loaderW1 sceneCapB vmFirst (mk0 0 "wing")
    (by decide) (by decide)


theorem half_period_eq (f : ℚ) : (1 / f) / 2 = 1 / (2 * f) := by
  rw [div_div, mul_comm]

theorem omUpdate_blinking (s : OMState) (dt : ℚ) (hb : s.isBlinking = true) :
    (s.blinkTimer + dt < 1 / (2 * s.blinkFreq) →
      omUpdate s dt = { s with blinkTimer := s.blinkTimer + dt }) ∧
    (1 / (2 * s.blinkFreq) ≤ s.blinkTimer + dt →
      omUpdate s dt =
        { s with blinkTimer := 0, blinkVisible := !s.blinkVisible,
                 passSelected :=
                   if !s.blinkVisible then s.selectedObjects else [] }) := by
  unfold omUpdate
  rw [if_neg (by simp [hb])]
  constructor
  · intro hlt
    rw [if_neg (by rw [half_period_eq]; exact not_le.mpr hlt)]
  · intro hle
    rw [if_pos (by rw [half_period_eq]; exact hle)]

theorem omIter_toggle (s : OMState) : ∀ (n : Nat),
    (omIter (omSetBlinking s true 2) (1 / 4) n).isBlinking = true ∧
    (omIter (omSetBlinking s true 2) (1 / 4) n).blinkFreq = 2 ∧
    (omIter (omSetBlinking s true 2) (1 / 4) n).blinkTimer = 0 ∧
    (omIter (omSetBlinking s true 2) (1 / 4) n).blinkVisible =
      decide (n % 2 = 0) := by
  intro n
  induction n with
  | zero =>
    refine ⟨rfl, rfl, rfl, ?_⟩
    rfl
  | succ k ih =>
    obtain ⟨hb, hf, ht, hv⟩ := ih
    have hupd := (omUpdate_blinking (omIter (omSetBlinking s true 2) (1 / 4) k)
      (1 / 4) hb).2
      (by rw [hf, ht]; norm_num)
    have hstep : omIter (omSetBlinking s true 2) (1 / 4) (k + 1) =
        omUpdate (omIter (omSetBlinking s true 2) (1 / 4) k) (1 / 4) := rfl
    rw [hstep, hupd]
    refine ⟨hb, hf, rfl, ?_⟩
    rw [hv]
    by_cases hk : k % 2 = 0
    · have : ¬ (k + 1) % 2 = 0 := by omega
      simp [hk, this]
    · have : (k + 1) % 2 = 0 := by omega
      simp [hk, this]

/-- C9: with blinking enabled at frequency f (positive), update toggles
the highlight on/off flag exactly when the accumulated delta since the
last toggle reaches half the period 1/(2 f), resetting the timer;
concretely, after setBlinking(true, 2.0) every update(0.25) call
toggles the flag (the flag after n updates is on exactly for even n,
with the timer back at 0); setBlinking(false, f) immediately forces the
highlight visible, resets the timer and restores the pass selection;
and neither update nor setBlinking mutates any primitive state. -/
theorem c9_blink_timer :
    (∀ (s : OMState) (n : Nat),
      (omIter (omSetBlinking s true 2) (1 / 4) n).blinkVisible =
        decide (n % 2 = 0) ∧
      (omIter (omSetBlinking s true 2) (1 / 4) n).blinkTimer = 0) ∧
    (∀ (s : OMState) (dt : ℚ), s.isBlinking = true →
      (s.blinkTimer + dt < 1 / (2 * s.blinkFreq) →
        (omUpdate s dt).blinkVisible = s.blinkVisible ∧
        (omUpdate s dt).blinkTimer = s.blinkTimer + dt) ∧
      (1 / (2 * s.blinkFreq) ≤ s.blinkTimer + dt →
        (omUpdate s dt).blinkVisible = (!s.blinkVisible) ∧
        (omUpdate s dt).blinkTimer = 0)) ∧
    (∀ (s : OMState) (freq : ℚ),
      (omSetBlinking s false freq).blinkVisible = true ∧
      (omSetBlinking s false freq).blinkTimer = 0 ∧
      (omSetBlinking s false freq).passSelected = s.selectedObjects) ∧
    (∀ (p : OMState × List Mesh) (dt : ℚ) (e : Bool) (freq : ℚ),
      (omUpdateFull p dt).2 = p.2 ∧ (omSetBlinkingFull p e freq).2 = p.2) := by
  refine ⟨?_, ?_, ?_, ?_⟩
  · intro s n
    obtain ⟨_, _, ht, hv⟩ := omIter_toggle s n
    exact ⟨hv, ht⟩
  · intro s dt hb
    obtain ⟨h1, h2⟩ := omUpdate_blinking s dt hb
    constructor
    · intro hlt
      rw [h1 hlt]
      exact ⟨rfl, rfl⟩
    · intro hle
      rw [h2 hle]
      exact ⟨rfl, rfl⟩
  · intro s freq
    exact ⟨rfl, rfl, rfl⟩
  · intro p dt e freq
    exact ⟨rfl, rfl⟩

/-- C9 witness: one update after enabling 2 Hz blinking toggles the
flag off and resets the timer; the first toggle fires because a quarter
second has accumulated; disabling restores visibility; the scene
component is untouched. -/
theorem c9_blink_timer_witness :
    ((omIter (omSetBlinking om0 true 2) (1 / 4) 1).blinkVisible =
        decide (1 % 2 = 0) ∧
      (omIter (omSetBlinking om0 true 2) (1 / 4) 1).blinkTimer = 0) ∧
    ((omUpdate (omSetBlinking om0 true 2) (1 / 4)).blinkVisible =
        (!(omSetBlinking om0 true 2).blinkVisible) ∧
      (omUpdate (omSetBlinking om0 true 2) (1 / 4)).blinkTimer = 0) ∧
    ((omSetBlinking om0 false 2).blinkVisible = true ∧
      (omSetBlinking om0 false 2).blinkTimer = 0 ∧
      (omSetBlinking om0 false 2).passSelected = om0.selectedObjects) ∧
    (omUpdateFull (om0, sceneWing) (1 / 4)).2 = sceneWing :=
  ⟨c9_blink_timer.1 om0 1,
   ((c9_blink_timer.2.1 (omSetBlinking om0 true 2) (1 / 4) rfl).2
     (by rw [show (omSetBlinking om0 true 2).blinkFreq = 2 from rfl,
           show (omSetBlinking om0 true 2).blinkTimer = 0 from rfl]
         norm_num)),
   c9_blink_timer.2.2.1 om0 2,
   (c9_blink_timer.2.2.2 (om0, sceneWing) (1 / 4) true 2).1⟩

/-- A fade animation over a scene acts pointwise: each mesh ends at its
own fadePoint. -/
theorem runFade_eq_map (targets : List Nat) (s : ℚ) :
    ∀ (ts : List ℚ) (scene : List Mesh),
      runFade targets s ts scene = scene.map (fadePoint targets s ts) := by
  intro ts
  induction ts with
  | nil =>
      intro scene
      exact (List.map_id' scene).symm
  | cons t ts ih =>
      intro scene
      have h1 : runFade targets s (t :: ts) scene =
          runFade targets s ts (fadeTick targets s t scene) := rfl
      rw [h1, ih]
      unfold fadeTick
      rw [List.map_map]
      rfl

/-- A mesh outside the target list is never touched by the fade. -/
theorem fadePoint_nonTarget (targets : List Nat) (s : ℚ) :
    ∀ (ts : List ℚ) (m : Mesh), targets.contains m.uuid = false →
      fadePoint targets s ts m = m := by
  intro ts
  induction ts with
  | nil => intro m _; rfl
  | cons t ts ih =>
      intro m h
      have h1 : fadePoint targets s (t :: ts) m =
          fadePoint targets s ts
            (if targets.contains m.uuid = true then fadeMeshUpd s t m else m) :=
        rfl
      rw [h1, h, if_neg (by simp), ih m h]

/-- The fade never changes a mesh uuid. -/
theorem fadePoint_uuid (targets : List Nat) (s : ℚ) :
    ∀ (ts : List ℚ) (m : Mesh), (fadePoint targets s ts m).uuid = m.uuid := by
  intro ts
  induction ts with
  | nil => intro m; rfl
  | cons t ts ih =>
      intro m
      have h1 : fadePoint targets s (t :: ts) m =
          fadePoint targets s ts
            (if targets.contains m.uuid = true then fadeMeshUpd s t m else m) :=
        rfl
      rw [h1, ih]
      by_cases hc : targets.contains m.uuid = true
      · rw [if_pos hc]
        rfl
      · rw [if_neg hc]

/-- Splitting a fade run across an append of tick lists. -/
theorem fadePoint_append (targets : List Nat) (s : ℚ) (ts1 ts2 : List ℚ)
    (m : Mesh) :
    fadePoint targets s (ts1 ++ ts2) m =
      fadePoint targets s ts2 (fadePoint targets s ts1 m) := by
  unfold fadePoint
  rw [List.foldl_append]

/-- A frame at or past the 500 ms mark finishes the fade: opacity zero
and hidden. -/
theorem fadeMeshUpd_done (s t : ℚ) (m : Mesh) (h : s + 500 ≤ t) :
    (fadeMeshUpd s t m).opacity = 0 ∧ (fadeMeshUpd s t m).visible = false := by
  have hp : min ((t - s) / 500) 1 = 1 := by
    rw [min_eq_right]
    rw [le_div_iff₀ (by norm_num : (0 : ℚ) < 500)]
    linarith
  constructor
  · show 1 - min ((t - s) / 500) 1 = 0
    rw [hp]
    norm_num
  · show (if (1 : ℚ) ≤ min ((t - s) / 500) 1 then false else m.visible) = false
    rw [hp, if_pos le_rfl]

/-- Within the 500 ms window the written opacity is the linear ramp. -/
theorem fadeMeshUpd_linear (s t : ℚ) (m : Mesh) (_g : s ≤ t)
    (h1 : t ≤ s + 500) :
    (fadeMeshUpd s t m).opacity = 1 - (t - s) / 500 := by
  have hp : min ((t - s) / 500) 1 = (t - s) / 500 := by
    rw [min_eq_left]
    rw [div_le_one (by norm_num : (0 : ℚ) < 500)]
    linarith
  show 1 - min ((t - s) / 500) 1 = 1 - (t - s) / 500
  rw [hp]

/-- C7: in the wing step fade over the four-primitive scene, for every
frame schedule whose last frame is at or past the 500 ms mark, the
non-involved fuselage ends at opacity 0 and invisible while the three
wing primitives are exactly their original selves; the wing primitives
are untouched by every schedule, and a single frame at time t within
the window writes the linear ramp opacity 1 - t/500 on the fuselage
only. -/
theorem c7_fade_scenario :
    (∀ (ts : List ℚ) (tl : ℚ), 500 ≤ tl →
      (runFade targetsS1 0 (ts ++ [tl])
          (setTransparentOn targetsS1 sceneWing)).map
          (fun m => (m.uuid, m.opacity, m.visible)) =
        [(0, 1, true), (1, 1, true), (2, 1, true), (3, 0, false)]) ∧
    (∀ ts : List ℚ,
      (runFade targetsS1 0 ts (setTransparentOn targetsS1 sceneWing)).take 3 =
        [mk0 0 "wing", mk0 1 "wing_1", mk0 2 "wing_2"]) ∧
    (∀ t : ℚ, 0 ≤ t → t ≤ 500 →
      (runFade targetsS1 0 [t]
          (setTransparentOn targetsS1 sceneWing)).map Mesh.opacity =
        [1, 1, 1, 1 - t / 500]) := by
  have hT : targetsS1 = [3] := rfl
  have hprep : setTransparentOn targetsS1 sceneWing =
      [mk0 0 "wing", mk0 1 "wing_1", mk0 2 "wing_2", fusPrep] := rfl
  refine ⟨?_, ?_, ?_⟩
  · intro ts tl htl
    rw [hprep, hT, runFade_eq_map]
    simp only [List.map_cons, List.map_nil]
    rw [fadePoint_nonTarget [3] 0 (ts ++ [tl]) (mk0 0 "wing") rfl,
        fadePoint_nonTarget [3] 0 (ts ++ [tl]) (mk0 1 "wing_1") rfl,
        fadePoint_nonTarget [3] 0 (ts ++ [tl]) (mk0 2 "wing_2") rfl,
        fadePoint_append [3] 0 ts [tl] fusPrep]
    have hu : (fadePoint [3] 0 ts fusPrep).uuid = fusPrep.uuid :=
      fadePoint_uuid [3] 0 ts fusPrep
    have hc : List.contains [3] (fadePoint [3] 0 ts fusPrep).uuid = true := by
      rw [hu]
      rfl
    have hstep : fadePoint [3] 0 [tl] (fadePoint [3] 0 ts fusPrep) =
        fadeMeshUpd 0 tl (fadePoint [3] 0 ts fusPrep) := by
      show (if List.contains [3] (fadePoint [3] 0 ts fusPrep).uuid = true then
          fadeMeshUpd 0 tl (fadePoint [3] 0 ts fusPrep)
        else fadePoint [3] 0 ts fusPrep) = _
      rw [if_pos hc]
    rw [hstep]
    have hdone := fadeMeshUpd_done 0 tl (fadePoint [3] 0 ts fusPrep)
      (by linarith)
    have h4 : ((fadeMeshUpd 0 tl (fadePoint [3] 0 ts fusPrep)).uuid,
        (fadeMeshUpd 0 tl (fadePoint [3] 0 ts fusPrep)).opacity,
        (fadeMeshUpd 0 tl (fadePoint [3] 0 ts fusPrep)).visible) =
        ((3 : Nat), (0 : ℚ), false) := by
      have huu : (fadeMeshUpd 0 tl (fadePoint [3] 0 ts fusPrep)).uuid =
          (fadePoint [3] 0 ts fusPrep).uuid := rfl
      rw [huu, hu, hdone.1, hdone.2]
      rfl
    simp only [List.cons.injEq]
    exact ⟨rfl, rfl, rfl, h4, trivial⟩
  · intro ts
    rw [hprep, hT, runFade_eq_map]
    simp only [List.map_cons, List.map_nil]
    rw [fadePoint_nonTarget [3] 0 ts (mk0 0 "wing") rfl,
        fadePoint_nonTarget [3] 0 ts (mk0 1 "wing_1") rfl,
        fadePoint_nonTarget [3] 0 ts (mk0 2 "wing_2") rfl]
    rfl
  · intro t h0 h5
    rw [hprep, hT, runFade_eq_map]
    simp only [List.map_cons, List.map_nil]
    rw [fadePoint_nonTarget [3] 0 [t] (mk0 0 "wing") rfl,
        fadePoint_nonTarget [3] 0 [t] (mk0 1 "wing_1") rfl,
        fadePoint_nonTarget [3] 0 [t] (mk0 2 "wing_2") rfl]
    have hstep : fadePoint [3] 0 [t] fusPrep = fadeMeshUpd 0 t fusPrep := rfl
    rw [hstep, fadeMeshUpd_linear 0 t fusPrep (by linarith) (by linarith)]
    simp only [List.cons.injEq]
    exact ⟨rfl, rfl, rfl, by norm_num, trivial⟩

/-- C7 witness: at the concrete schedule with a single final frame at
500 ms the scenario lands on the claimed values, and a lone frame at
250 ms writes the half-way ramp. -/
theorem c7_fade_scenario_witness :
    (runFade targetsS1 0 ([] ++ [500])
        (setTransparentOn targetsS1 sceneWing)).map
        (fun m => (m.uuid, m.opacity, m.visible)) =
      [(0, 1, true), (1, 1, true), (2, 1, true), (3, 0, false)] ∧
    (runFade targetsS1 0 [250]
        (setTransparentOn targetsS1 sceneWing)).map Mesh.opacity =
      [1, 1, 1, 1 - 250 / 500] :=
  ⟨c7_fade_scenario.1 [] 500 (by norm_num),
   c7_fade_scenario.2.2 250 (by norm_num) (by norm_num)⟩

/-- An interleaved callback sequence acts pointwise on the scene. -/
theorem runFadeEvents_eq_map :
    ∀ (evs : List FadeEv) (scene : List Mesh),
      runFadeEvents evs scene = scene.map (fadeEvPoint evs) := by
  intro evs
  induction evs with
  | nil =>
      intro scene
      exact (List.map_id' scene).symm
  | cons e evs ih =>
      intro scene
      have h1 : runFadeEvents (e :: evs) scene =
          runFadeEvents evs (fadeTick e.targets e.start e.now scene) := rfl
      rw [h1, ih]
      unfold fadeTick
      rw [List.map_map]
      rfl

/-- In the rapid-switch trace the fuselage is hit exactly by the two
frames of the FIRST (stale) fade, including its completion frame. -/
theorem fadeEvPoint_fus :
    fadeEvPoint evsRapid fusPrep =
      fadeMeshUpd 0 500 (fadeMeshUpd 0 250 fusPrep) := rfl

/-- C4 counterexample: no animation-generation guard exists, so after
the rapid transition from the wing step to the fuselage step the stale
completion frame of the first fade has hidden the fuselage, and the
settled scene does NOT match the second step partition (which demands
the involved fuselage visible at opacity 1). -/
theorem c4_counterexample :
    stepPartitionSettled sceneRapidFinal (involvedFus.map Mesh.uuid) =
      false := by
  have hscene : sceneRapidFinal = sceneRapidPrep.map (fadeEvPoint evsRapid) :=
    runFadeEvents_eq_map evsRapid sceneRapidPrep
  have hprep2 : sceneRapidPrep =
      [{ mk0 0 "wing" with transparent := true },
       { mk0 1 "wing_1" with transparent := true },
       { mk0 2 "wing_2" with transparent := true }, fusPrep] := rfl
  have hmem : fadeEvPoint evsRapid fusPrep ∈ sceneRapidFinal := by
    rw [hscene, hprep2]
    simp only [List.map_cons, List.map_nil]
    exact List.mem_cons_of_mem _ (List.mem_cons_of_mem _
      (List.mem_cons_of_mem _ (List.mem_cons_self _ _)))
  unfold stepPartitionSettled
  rw [Bool.eq_false_iff]
  intro hall
  rw [List.all_eq_true] at hall
  have hP := hall _ hmem
  rw [fadeEvPoint_fus] at hP
  rw [if_pos (show (involvedFus.map Mesh.uuid).contains
      (fadeMeshUpd 0 500 (fadeMeshUpd 0 250 fusPrep)).uuid = true from rfl)]
    at hP
  rw [(fadeMeshUpd_done 0 500 (fadeMeshUpd 0 250 fusPrep)
      (by norm_num)).2] at hP
  simp at hP

/-- C4 amended: there is no generation counter anywhere; every pending
frame callback applies its mutation unconditionally (writing the
clamped ramp opacity and hiding the mesh once the ramp completes), the
whole interleaving acts pointwise as the composition of ALL callbacks
that target a mesh, and in the rapid-switch trace the stale first-fade
completion frame leaves the second step involved fuselage hidden. -/
theorem c4_no_generation_guard :
    (∀ (evs : List FadeEv) (scene : List Mesh),
      runFadeEvents evs scene = scene.map (fadeEvPoint evs)) ∧
    (∀ (e : FadeEv) (m : Mesh), e.targets.contains m.uuid = true →
      (fadeEvPoint [e] m).opacity = 1 - min ((e.now - e.start) / 500) 1 ∧
      (1 ≤ min ((e.now - e.start) / 500) 1 →
        (fadeEvPoint [e] m).visible = false)) ∧
    (fadeEvPoint evsRapid fusPrep).visible = false := by
  refine ⟨runFadeEvents_eq_map, ?_, ?_⟩
  · intro e m h
    have h1 : fadeEvPoint [e] m =
        (if e.targets.contains m.uuid = true then fadeMeshUpd e.start e.now m
         else m) := rfl
    rw [h1, if_pos h]
    constructor
    · rfl
    · intro hge
      show (if (1 : ℚ) ≤ min ((e.now - e.start) / 500) 1 then false
          else m.visible) = false
      rw [if_pos hge]
  · rw [fadeEvPoint_fus]
    exact (fadeMeshUpd_done 0 500 (fadeMeshUpd 0 250 fusPrep) (by norm_num)).2

/-- C4 amended witness: the first frame of the stale fade targets the
fuselage and writes the ramp value for 250 ms elapsed. -/
theorem c4_no_generation_guard_witness :
    List.contains (FadeEv.mk [3] 0 250).targets fusPrep.uuid = true ∧
    (fadeEvPoint [FadeEv.mk [3] 0 250] fusPrep).opacity =
      1 - min (((250 : ℚ) - 0) / 500) 1 :=
  ⟨rfl, (c4_no_generation_guard.2.1 (FadeEv.mk [3] 0 250) fusPrep rfl).1⟩

end BuildXR
